import Mathlib

/-!
# HyprlandMonitor: a shallow embedding of `src/hyprlandmonitor.cpp`

The development follows the source file top to bottom.

* The Qt value types the source uses (`QString`, `QByteArray`, `QJsonValue`, `QJsonArray`,
  `QJsonObject`, `QJsonDocument`) are modelled in the first part, with the accessors the source
  calls and their documented defaults.
* The class `HyprlandMonitor` is a record of its data members, extended with two bookkeeping
  fields: the script of what the request socket will answer, and the ordered log of what the
  object did (signals emitted, requests issued, timers started).
* Each member function is a function on that record.
* The views handed to QML are `QVariant` values; the debounce timer is a single-shot `QTimer`
  on a clock that counts milliseconds.

Two library functions are not re-implemented but taken as parameters wherever the source calls
them: `QJsonDocument::fromJson` (the JSON parser) and `QString::fromUtf8` (the UTF-8 decoder).
Every statement below holds for all choices of these two functions.
-/

set_option autoImplicit false

/-! ## Qt value types -/

/-- Text: `QString`. -/
abbrev QString := String

/-- Raw bytes: `QByteArray`. -/
abbrev QByteArray := List UInt8

/-- A JSON value, `QJsonValue`, with the seven types of `QJsonValue::Type`. A number is a
rational: every IEEE double and every 64-bit integer is one, and the source only ever asks a
number whether it is a whole number that fits an `int`. -/
inductive QJsonValue where
  | null
  | bool (b : Bool)
  | double (d : ℚ)
  | string (s : QString)
  | array (a : List QJsonValue)
  | object (o : List (QString × QJsonValue))
  | undefined

/-- A JSON array, `QJsonArray`. -/
abbrev QJsonArray := List QJsonValue

/-- A JSON object, `QJsonObject`: its members, kept in key order as Qt does. Lookup takes the
first member with the key. -/
abbrev QJsonObject := List (QString × QJsonValue)

namespace QJsonValue

mutual
/-- Equality of JSON values is decidable. -/
def decEq : (x y : QJsonValue) → Decidable (x = y)
  | null, null => isTrue rfl
  | undefined, undefined => isTrue rfl
  | bool a, bool b =>
    if h : a = b then isTrue (h ▸ rfl) else isFalse (fun e => h (by cases e; rfl))
  | double a, double b =>
    if h : a = b then isTrue (h ▸ rfl) else isFalse (fun e => h (by cases e; rfl))
  | string a, string b =>
    if h : a = b then isTrue (h ▸ rfl) else isFalse (fun e => h (by cases e; rfl))
  | array a, array b =>
    match decEqList a b with
    | isTrue h => isTrue (h ▸ rfl)
    | isFalse h => isFalse (fun e => h (by cases e; rfl))
  | object a, object b =>
    match decEqMembers a b with
    | isTrue h => isTrue (h ▸ rfl)
    | isFalse h => isFalse (fun e => h (by cases e; rfl))
  | null, bool _ | null, double _ | null, string _ | null, array _ | null, object _
  | null, undefined | bool _, null | bool _, double _ | bool _, string _ | bool _, array _
  | bool _, object _ | bool _, undefined | double _, null | double _, bool _
  | double _, string _ | double _, array _ | double _, object _ | double _, undefined
  | string _, null | string _, bool _ | string _, double _ | string _, array _
  | string _, object _ | string _, undefined | array _, null | array _, bool _
  | array _, double _ | array _, string _ | array _, object _ | array _, undefined
  | object _, null | object _, bool _ | object _, double _ | object _, string _
  | object _, array _ | object _, undefined | undefined, null | undefined, bool _
  | undefined, double _ | undefined, string _ | undefined, array _
  | undefined, object _ => isFalse nofun
/-- Equality of lists of JSON values is decidable. -/
def decEqList : (x y : List QJsonValue) → Decidable (x = y)
  | [], [] => isTrue rfl
  | [], _ :: _ | _ :: _, [] => isFalse nofun
  | a :: as, b :: bs =>
    match decEq a b, decEqList as bs with
    | isTrue h, isTrue t => isTrue (h ▸ t ▸ rfl)
    | isFalse h, _ => isFalse (fun e => h (by cases e; rfl))
    | _, isFalse t => isFalse (fun e => t (by cases e; rfl))
/-- Equality of member lists is decidable. -/
def decEqMembers : (x y : List (QString × QJsonValue)) → Decidable (x = y)
  | [], [] => isTrue rfl
  | [], _ :: _ | _ :: _, [] => isFalse nofun
  | (k, a) :: as, (l, b) :: bs =>
    if hk : k = l then
      match decEq a b, decEqMembers as bs with
      | isTrue h, isTrue t => isTrue (hk ▸ h ▸ t ▸ rfl)
      | isFalse h, _ => isFalse (fun e => h (by cases e; rfl))
      | _, isFalse t => isFalse (fun e => t (by cases e; rfl))
    else isFalse (fun e => hk (by cases e; rfl))
end

instance : DecidableEq QJsonValue := decEq

/-- `QJsonValue::toBool()`: the boolean, or `false` when the value is not a boolean. -/
def toBool : QJsonValue → Bool
  | bool b => b
  | _ => false

/-- `QJsonValue::toInt(defaultValue)`: the number when it is whole and fits a 32-bit `int`,
otherwise `defaultValue` (also for every value that is not a number). -/
def toInt (v : QJsonValue) (defaultValue : Int) : Int :=
  match v with
  | double d =>
    if d.den = 1 ∧ -2147483648 ≤ d.num ∧ d.num ≤ 2147483647 then d.num else defaultValue
  | _ => defaultValue

/-- `QJsonValue::toString()`: the string, or the empty string when the value is not one. -/
def toString : QJsonValue → QString
  | string s => s
  | _ => ""

/-- `QJsonValue::toArray()`: the array, or the empty array when the value is not one. -/
def toArray : QJsonValue → QJsonArray
  | array a => a
  | _ => []

/-- `QJsonValue::toObject()`: the object, or the empty object when the value is not one. -/
def toObject : QJsonValue → QJsonObject
  | object o => o
  | _ => []

end QJsonValue

namespace QJsonArray

/-- The non-const `QJsonArray::operator[](i)`, the overload chosen for a non-const local such
as `QJsonArray size = ...;`. Qt documents: "`i` must be a valid index position in the array
(i.e., `0 <= i < size()`)". The result is the element at a valid index, and `none` where the
contract is broken and the read has no defined result. -/
def index (a : QJsonArray) (i : Nat) : Option QJsonValue :=
  a.get? i

end QJsonArray

namespace QJsonObject

/-- `QJsonObject::value(key)`: the member's value, or `Undefined` when there is no such member. -/
def value (o : QJsonObject) (key : QString) : QJsonValue :=
  match o with
  | [] => QJsonValue.undefined
  | (k, v) :: rest => if k = key then v else value rest key

/-- `QJsonObject::contains(key)`. -/
def contains (o : QJsonObject) (key : QString) : Bool :=
  match o with
  | [] => false
  | (k, _) :: rest => if k = key then true else contains rest key

/-- `QJsonObject::insert(key, value)`, also what assigning through `operator[]` does: replace
the member when the key is present, otherwise add it at its place in key order. -/
def insert (o : QJsonObject) (key : QString) (v : QJsonValue) : QJsonObject :=
  match o with
  | [] => [(key, v)]
  | (k, w) :: rest =>
    if k = key then (k, v) :: rest
    else if key.data < k.data then (key, v) :: (k, w) :: rest
    else (k, w) :: insert rest key v

/-- The non-const `QJsonObject::operator[](key)`, the overload chosen whenever the object is a
non-const local such as `QJsonObject win = val.toObject();`. Qt documents it as: "Returns a
reference to the value for key. If there is no value with key `key` in the object, one is created
with a `QJsonValue::Null` value and then stored in the object." The result is the object after
the call. -/
def touch (o : QJsonObject) (key : QString) : QJsonObject :=
  if contains o key then o else insert o key QJsonValue.null

/-- The value read through the reference that the non-const `operator[]` returns: the member's
value, which is `Null` when the member has just been created. -/
def ref (o : QJsonObject) (key : QString) : QJsonValue :=
  value (touch o key) key

end QJsonObject

/-- What `QJsonDocument::fromJson` hands back when it reports no error: a document that holds
an array, an object, or nothing. -/
inductive QJsonDocument where
  | empty
  | array (a : QJsonArray)
  | object (o : QJsonObject)
  deriving DecidableEq

namespace QJsonDocument

/-- `QJsonDocument::isArray()`. -/
def isArray : QJsonDocument → Bool
  | array _ => true
  | _ => false

/-- `QJsonDocument::isObject()`. -/
def isObject : QJsonDocument → Bool
  | object _ => true
  | _ => false

/-- `QJsonDocument::array()`. -/
def toArray : QJsonDocument → QJsonArray
  | array a => a
  | _ => []

/-- `QJsonDocument::object()`. -/
def toObject : QJsonDocument → QJsonObject
  | object o => o
  | _ => []

end QJsonDocument

/-- The JSON parser `QJsonDocument::fromJson(data, &error)`: `none` stands for
`error.error != QJsonParseError::NoError`. -/
abbrev JsonParser := QByteArray → Option QJsonDocument

/-- The decoder `QString::fromUtf8`. -/
abbrev Utf8Decoder := QByteArray → QString

/-- A decoder reads bytes below 128 as the characters with those codes, as UTF-8 does. -/
def Utf8Decoder.Ascii (fromUtf8 : Utf8Decoder) : Prop :=
  ∀ bytes : QByteArray, (∀ b ∈ bytes, b.toNat < 128) →
    fromUtf8 bytes = String.mk (bytes.map (fun b => Char.ofNat b.toNat))

/-! ## Text helpers -/

/-- `QChar::isSpace`: tab to carriage return, space, next line, no-break space and the Unicode
separator categories Zs, Zl and Zp. -/
def QChar.isSpace (c : Char) : Bool :=
  let u := c.toNat
  u == 0x20 || (0x09 ≤ u && u ≤ 0x0d) || u == 0x85 || u == 0xa0 || u == 0x1680 ||
    (0x2000 ≤ u && u ≤ 0x200a) || u == 0x2028 || u == 0x2029 || u == 0x202f ||
    u == 0x205f || u == 0x3000

namespace QString

/-- `QString::trimmed()`: the string without the whitespace at its start and at its end. -/
def trimmed (s : QString) : QString :=
  String.mk ((s.data.dropWhile QChar.isSpace).reverse.dropWhile QChar.isSpace).reverse

/-- `QString::isEmpty()`. -/
def isEmpty (s : QString) : Bool :=
  s.data.isEmpty

/-- The scan behind `QString::split(sep)` for a non-empty separator: `cur` holds, reversed, the
characters of the part being read, and `skip` counts the characters of a separator just matched
that are still to be stepped over. -/
def splitGo (sep : List Char) : List Char → Nat → List Char → List QString
  | [], _, cur => [String.mk cur.reverse]
  | _ :: cs, skip + 1, cur => splitGo sep cs skip cur
  | c :: cs, 0, cur =>
    if sep.isPrefixOf (c :: cs) then
      String.mk cur.reverse :: splitGo sep cs (sep.length - 1) []
    else splitGo sep cs 0 (c :: cur)

/-- `QString::split(sep)` with the default `Qt::KeepEmptyParts`, for a non-empty separator: the
parts between successive occurrences of `sep`, found left to right without overlap. -/
def split (s sep : QString) : List QString :=
  splitGo sep.data s.data 0 []

end QString

/-- C++ `int` arithmetic: the value of a product reduced to 32-bit two's complement. -/
def wrapInt (n : Int) : Int :=
  (n + 2147483648) % 4294967296 - 2147483648

/-! ## The class `HyprlandMonitor` -/

/-- What the object does that an observer can see, in the order it does it: the signals of the
class, each entry into `sendRequest`, each payload written to a request connection, each start
of the debounce timer and each single-shot timer armed. -/
inductive Effect where
  | windowListChanged
  | workspacesChanged
  | monitorsChanged
  | activeWorkspaceChanged
  | focusedMonitorChanged
  | connectedChanged
  | hyprlandEvent (event : QString) (data : QJsonObject)
  | sendRequest (command : QString)
  | write (payload : QString)
  | debounceTimerStart
  | singleShot (msec : Nat)
  deriving DecidableEq

/-- The data members of `HyprlandMonitor` (`hyprlandmonitor.hpp`), with two bookkeeping fields:
`replies` scripts the request socket (one entry per connection the object will open: `none`
when `waitForConnected` fails, otherwise the bytes `readAll` returns), and `log` records the
effects so far, oldest first. -/
structure HyprlandMonitor where
  m_windowList : QJsonArray
  m_workspaces : QJsonArray
  m_monitors : QJsonArray
  m_activeWorkspace : QJsonObject
  m_focusedMonitor : QJsonObject
  m_eventBuffer : QByteArray
  m_connected : Bool
  replies : List (Option QByteArray)
  log : List Effect
  deriving DecidableEq

namespace HyprlandMonitor

/-- Append one effect to the log. -/
def emit (self : HyprlandMonitor) (e : Effect) : HyprlandMonitor :=
  { self with log := self.log ++ [e] }

/-- The scan of `updateFocusedMonitor` over the monitors still to visit: the first monitor
whose `focused` member is `true` becomes `m_focusedMonitor` and the scan returns; when the
list is exhausted nothing has been assigned. -/
def updateFocusedMonitorFrom (self : HyprlandMonitor) : List QJsonValue → HyprlandMonitor
  | [] => self
  | val :: rest =>
    let mon := QJsonObject.touch val.toObject "focused"
    if (QJsonObject.value mon "focused").toBool then
      ({ self with m_focusedMonitor := mon }).emit Effect.focusedMonitorChanged
    else updateFocusedMonitorFrom self rest

/-- `HyprlandMonitor::updateFocusedMonitor` (lines 146-155). -/
def updateFocusedMonitor (self : HyprlandMonitor) : HyprlandMonitor :=
  updateFocusedMonitorFrom self self.m_monitors

/-- `HyprlandMonitor::parseResponse` (lines 121-144). -/
def parseResponse (fromJson : JsonParser) (self : HyprlandMonitor) (data : QByteArray)
    (type : QString) : HyprlandMonitor :=
  match fromJson data with
  | none => self
  | some doc =>
    if type = "clients" ∧ doc.isArray then
      ({ self with m_windowList := doc.toArray }).emit Effect.windowListChanged
    else if type = "workspaces" ∧ doc.isArray then
      ({ self with m_workspaces := doc.toArray }).emit Effect.workspacesChanged
    else if type = "monitors" ∧ doc.isArray then
      (updateFocusedMonitor { self with m_monitors := doc.toArray }).emit Effect.monitorsChanged
    else if type = "activeworkspace" ∧ doc.isObject then
      ({ self with m_activeWorkspace := doc.toObject }).emit Effect.activeWorkspaceChanged
    else self

/-- `HyprlandMonitor::sendRequest` (lines 85-103): open a fresh connection; when it fails,
return; otherwise write `j/<command>`, read what is there and hand it to `parseResponse`. -/
def sendRequest (fromJson : JsonParser) (self : HyprlandMonitor) (command : QString) :
    HyprlandMonitor :=
  let self := self.emit (Effect.sendRequest command)
  match self.replies with
  | [] => self
  | none :: rest => { self with replies := rest }
  | some response :: rest =>
    parseResponse fromJson
      (({ self with replies := rest }).emit (Effect.write ("j/" ++ command))) response command

/-- `HyprlandMonitor::sendDispatch` (lines 105-119). -/
def sendDispatch (self : HyprlandMonitor) (command : QString) : HyprlandMonitor :=
  match self.replies with
  | [] => self
  | none :: rest => { self with replies := rest }
  | some _ :: rest =>
    (({ self with replies := rest }).emit (Effect.write ("dispatch " ++ command))).emit
      (Effect.singleShot 100)

/-- `HyprlandMonitor::requestData` (lines 193-198). -/
def requestData (fromJson : JsonParser) (self : HyprlandMonitor) : HyprlandMonitor :=
  let self := sendRequest fromJson self "clients"
  let self := sendRequest fromJson self "workspaces"
  let self := sendRequest fromJson self "monitors"
  sendRequest fromJson self "activeworkspace"

/-- `HyprlandMonitor::refresh` (line 200). -/
def refresh (fromJson : JsonParser) (self : HyprlandMonitor) : HyprlandMonitor :=
  requestData fromJson self

/-- `HyprlandMonitor::dispatch` (lines 202-204). -/
def dispatch (self : HyprlandMonitor) (command : QString) : HyprlandMonitor :=
  sendDispatch self command

/-- `HyprlandMonitor::processEvent` (lines 172-191). -/
def processEvent (fromJson : JsonParser) (self : HyprlandMonitor) (eventLine : QString) :
    HyprlandMonitor :=
  let parts := QString.split eventLine ">>"
  if parts.length < 1 then self
  else
    let eventName := parts.getD 0 ""
    let self :=
      if eventName = "openwindow" ∨ eventName = "closewindow" ∨
          eventName = "movewindow" ∨ eventName = "movewindowv2" then
        requestData fromJson self
      else if eventName = "workspace" ∨ eventName = "focusedmon" ∨
          eventName = "activewindow" ∨ eventName = "changefloatingmode" then
        self.emit Effect.debounceTimerStart
      else self
    let eventObj : QJsonObject := []
    let eventObj := QJsonObject.insert eventObj "name" (QJsonValue.string eventName)
    let eventObj := QJsonObject.insert eventObj "data"
      (QJsonValue.string (if parts.length > 1 then parts.getD 1 "" else ""))
    self.emit (Effect.hyprlandEvent eventName eventObj)

/-- The `while` loop of `onEventSocketReadyRead` (lines 160-169). Every turn removes at least
one byte from the buffer, so `fuel`, the length of the buffer on entry, is never exhausted
before the loop condition fails. -/
def eventLoop (fromJson : JsonParser) (fromUtf8 : Utf8Decoder) :
    Nat → HyprlandMonitor → HyprlandMonitor
  | 0, self => self
  | fuel + 1, self =>
    if (10 : UInt8) ∈ self.m_eventBuffer then
      let newlineIndex := self.m_eventBuffer.indexOf (10 : UInt8)
      let line := self.m_eventBuffer.take newlineIndex
      let self := { self with m_eventBuffer := self.m_eventBuffer.drop (newlineIndex + 1) }
      let eventLine := QString.trimmed (fromUtf8 line)
      let self := if ¬ QString.isEmpty eventLine then processEvent fromJson self eventLine
        else self
      eventLoop fromJson fromUtf8 fuel self
    else self

/-- `HyprlandMonitor::onEventSocketReadyRead` (lines 157-170); `read` is what
`m_eventSocket->readAll()` returns. -/
def onEventSocketReadyRead (fromJson : JsonParser) (fromUtf8 : Utf8Decoder)
    (self : HyprlandMonitor) (read : QByteArray) : HyprlandMonitor :=
  let self := { self with m_eventBuffer := self.m_eventBuffer ++ read }
  eventLoop fromJson fromUtf8 self.m_eventBuffer.length self

/-- `HyprlandMonitor::windowByAddress` (lines 206-214), on the windows still to visit. -/
def windowByAddressFrom (address : QString) : List QJsonValue → QJsonObject
  | [] => []
  | val :: rest =>
    let win := QJsonObject.touch val.toObject "address"
    if (QJsonObject.value win "address").toString = address then win
    else windowByAddressFrom address rest

/-- `HyprlandMonitor::windowByAddress` (lines 206-214). -/
def windowByAddress (self : HyprlandMonitor) (address : QString) : QJsonObject :=
  windowByAddressFrom address self.m_windowList

/-- `HyprlandMonitor::workspaceById` (lines 216-224), on the workspaces still to visit. -/
def workspaceByIdFrom (id : Int) : List QJsonValue → QJsonObject
  | [] => []
  | val :: rest =>
    let ws := QJsonObject.touch val.toObject "id"
    if (QJsonObject.value ws "id").toInt 0 = id then ws
    else workspaceByIdFrom id rest

/-- `HyprlandMonitor::workspaceById` (lines 216-224). -/
def workspaceById (self : HyprlandMonitor) (id : Int) : QJsonObject :=
  workspaceByIdFrom id self.m_workspaces

/-- One turn of the loop of `biggestWindowForWorkspace` (lines 230-243), on the pair
`(biggest, maxArea)`; `none` when the turn indexes `size` outside its bounds. -/
def biggestStep (workspaceId : Int) (acc : QJsonObject × Int) (val : QJsonValue) :
    Option (QJsonObject × Int) :=
  let win := QJsonObject.touch val.toObject "workspace"
  let workspace := (QJsonObject.value win "workspace").toObject
  if (QJsonObject.ref workspace "id").toInt 0 = workspaceId then
    let win := QJsonObject.touch win "size"
    let size := (QJsonObject.value win "size").toArray
    match QJsonArray.index size 0, QJsonArray.index size 1 with
    | some width, some height =>
      let area := wrapInt (width.toInt 0 * height.toInt 0)
      if area > acc.2 then some (win, area) else some acc
    | _, _ => none
  else some acc

/-- The loop of `biggestWindowForWorkspace` (lines 230-243) over the windows still to visit. -/
def biggestLoop (workspaceId : Int) :
    List QJsonValue → QJsonObject × Int → Option (QJsonObject × Int)
  | [], acc => some acc
  | val :: rest, acc =>
    match biggestStep workspaceId acc val with
    | some next => biggestLoop workspaceId rest next
    | none => none

/-- `HyprlandMonitor::biggestWindowForWorkspace` (lines 226-245): the object returned, or
`none` when the loop indexes a `size` outside its bounds and the call has no defined result. -/
def biggestWindowForWorkspace (self : HyprlandMonitor) (workspaceId : Int) :
    Option QJsonObject :=
  match biggestLoop workspaceId self.m_windowList ([], 0) with
  | some (biggest, _) => some biggest
  | none => none

/-- `HyprlandMonitor::activeWorkspaceId` (`hyprlandmonitor.hpp`, lines 42-44). -/
def activeWorkspaceId (self : HyprlandMonitor) : Int :=
  (QJsonObject.value self.m_activeWorkspace "id").toInt (-1)

end HyprlandMonitor

/-! ## Views handed to QML: `QVariant`, `QVariantList`, `QVariantMap` -/

/-- A `QVariant`, with the kinds of content the class puts into one. -/
inductive QVariant where
  | invalid
  | int (n : Int)
  | string (s : QString)
  | jsonObject (o : QJsonObject)
  deriving DecidableEq

/-- A `QVariantList`. -/
abbrev QVariantList := List QVariant

/-- A `QVariantMap`, that is `QMap<QString, QVariant>`: its entries, kept in key order. -/
abbrev QVariantMap := List (QString × QVariant)

namespace QVariantMap

/-- Assignment `map[key] = v`: replace the entry when the key is present, otherwise add it at
its place in key order. -/
def insert (m : QVariantMap) (key : QString) (v : QVariant) : QVariantMap :=
  match m with
  | [] => [(key, v)]
  | (k, w) :: rest =>
    if k = key then (k, v) :: rest
    else if key.data < k.data then (key, v) :: (k, w) :: rest
    else (k, w) :: insert rest key v

/-- `QMap::value(key)`: the entry's value, or an invalid `QVariant` when there is no entry. -/
def value (m : QVariantMap) (key : QString) : QVariant :=
  match m with
  | [] => QVariant.invalid
  | (k, v) :: rest => if k = key then v else value rest key

/-- `QMap::keys()`. -/
def keys (m : QVariantMap) : List QString :=
  m.map Prod.fst

end QVariantMap

namespace HyprlandMonitor

/-- One turn of the loop of `windowByAddressMap` (lines 249-255). -/
def windowByAddressMapStep (map : QVariantMap) (val : QJsonValue) : QVariantMap :=
  let win := QJsonObject.touch val.toObject "address"
  let addr := (QJsonObject.value win "address").toString
  if ¬ QString.isEmpty addr then QVariantMap.insert map addr (QVariant.jsonObject win)
  else map

/-- `HyprlandMonitor::windowByAddressMap` (lines 247-257). -/
def windowByAddressMap (self : HyprlandMonitor) : QVariantMap :=
  self.m_windowList.foldl windowByAddressMapStep []

/-- One turn of the loop of `addresses` (lines 284-290). -/
def addressesStep (addrs : QVariantList) (val : QJsonValue) : QVariantList :=
  let win := QJsonObject.touch val.toObject "address"
  let addr := (QJsonObject.value win "address").toString
  if ¬ QString.isEmpty addr then addrs ++ [QVariant.string addr] else addrs

/-- `HyprlandMonitor::addresses` (lines 282-292). -/
def addresses (self : HyprlandMonitor) : QVariantList :=
  self.m_windowList.foldl addressesStep []

end HyprlandMonitor

/-! ## What the claims speak about

The words of the specification, as definitions over the same data. -/

/-- A JSON value as an integer: the number when the value is a whole number. -/
def QJsonValue.wholeNumber : QJsonValue → Option Int
  | QJsonValue.double d => if d.den = 1 then some d.num else none
  | _ => none

/-- The "embedded workspace id" of a window: the `id` of its `workspace` object. A window with
no `workspace` object, or with one whose `id` is not a whole number, has none. -/
def embeddedWorkspaceId (val : QJsonValue) : Option Int :=
  (QJsonObject.value (QJsonObject.value val.toObject "workspace").toObject "id").wholeNumber

/-- The two entries of the size of a window, when its `size` is an array that starts with two
whole numbers. -/
def sizeEntries (val : QJsonValue) : Option (Int × Int) :=
  match (QJsonObject.value val.toObject "size").toArray with
  | width :: height :: _ =>
    match width.wholeNumber, height.wholeNumber with
    | some w, some h => some (w, h)
    | _, _ => none
  | _ => none

/-- The area of a window: the integer product of the two entries of its size; a window
without such a size has area 0. -/
def areaOf (val : QJsonValue) : Int :=
  match sizeEntries val with
  | some (w, h) => w * h
  | none => 0

/-- An integer that a C++ `int` holds. -/
abbrev FitsInt (n : Int) : Prop :=
  -2147483648 ≤ n ∧ n ≤ 2147483647

/-- A window with an embedded workspace id that an `int` holds. -/
abbrev HasWorkspaceId (val : QJsonValue) : Prop :=
  ∃ n ∈ embeddedWorkspaceId val, FitsInt n

/-- A window with a size whose two entries, and their product, an `int` holds. -/
abbrev HasIntSize (val : QJsonValue) : Prop :=
  ∃ p ∈ sizeEntries val, FitsInt p.1 ∧ FitsInt p.2 ∧ FitsInt (p.1 * p.2)

/-- The window lists and ids on which `biggestWindowForWorkspace` is specified: the id is an
`int`; every window whose embedded workspace id is the asked one has a size of two whole
numbers that, with their product, fit an `int`; and when the asked id is 0, every window of the
list has an embedded workspace id that fits an `int`. -/
abbrev WithinInt (windows : QJsonArray) (workspaceId : Int) : Prop :=
  FitsInt workspaceId ∧
    (∀ v ∈ windows, embeddedWorkspaceId v = some workspaceId → HasIntSize v) ∧
    (workspaceId = 0 → ∀ v ∈ windows, HasWorkspaceId v)

/-- The "focused marker" of a monitor. -/
def isFocused (val : QJsonValue) : Bool :=
  (QJsonObject.value val.toObject "focused").toBool

/-- What a pull leaves in an array field: the decoded array when the pull produced a document
that is an array, the prior value otherwise (no connection, malformed payload, other shape). -/
def pulledArray (fromJson : JsonParser) (outcome : Option QByteArray) (prior : QJsonArray) :
    QJsonArray :=
  match outcome with
  | none => prior
  | some bytes =>
    match fromJson bytes with
    | some (QJsonDocument.array a) => a
    | _ => prior

/-- What a pull leaves in an object field: the decoded object when the pull produced a
document that is an object, the prior value otherwise. -/
def pulledObject (fromJson : JsonParser) (outcome : Option QByteArray) (prior : QJsonObject) :
    QJsonObject :=
  match outcome with
  | none => prior
  | some bytes =>
    match fromJson bytes with
    | some (QJsonDocument.object o) => o
    | _ => prior

/-- The first monitor in list order whose focused marker is true, or the prior value of
`focusedMonitor` when the list has none. -/
def firstFocused (monitors : QJsonArray) (prior : QJsonObject) : QJsonObject :=
  match monitors.find? isFocused with
  | some mon => mon.toObject
  | none => prior

/-- The newline-terminated lines of a byte stream, in order, each without its newline; `cur`
is the line being read. Bytes after the last newline belong to no line. -/
def completeLinesGo : QByteArray → QByteArray → List QByteArray
  | _, [] => []
  | cur, b :: rest =>
    if b = 10 then cur :: completeLinesGo [] rest else completeLinesGo (cur ++ [b]) rest

/-- The newline-terminated lines of a byte stream. -/
def completeLines (stream : QByteArray) : List QByteArray :=
  completeLinesGo [] stream

/-- The bytes of a stream that come after its last newline (the whole stream when it has
none); `cur` is the line being read. -/
def trailingGo : QByteArray → QByteArray → QByteArray
  | cur, [] => cur
  | cur, b :: rest => if b = 10 then trailingGo [] rest else trailingGo (cur ++ [b]) rest

/-- The bytes after the last newline of a stream. -/
def trailing (stream : QByteArray) : QByteArray :=
  trailingGo [] stream

/-- The event lines of a byte stream: its newline-terminated lines, decoded, trimmed of
surrounding whitespace, the empty ones dropped. -/
def eventLines (fromUtf8 : Utf8Decoder) (stream : QByteArray) : List QString :=
  ((completeLines stream).map (fun line => QString.trimmed (fromUtf8 line))).filter
    (fun eventLine => !QString.isEmpty eventLine)

/-- The name of an event line: its first part. -/
def eventName (eventLine : QString) : QString :=
  (QString.split eventLine ">>").getD 0 ""

/-- The raw event of an event line, as `processEvent` builds it (lines 177 and 187-190). -/
def rawEvent (eventLine : QString) : Effect :=
  let parts := QString.split eventLine ">>"
  Effect.hyprlandEvent (parts.getD 0 "")
    (QJsonObject.insert (QJsonObject.insert [] "name" (QJsonValue.string (parts.getD 0 "")))
      "data" (QJsonValue.string (if parts.length > 1 then parts.getD 1 "" else "")))

/-- The raw events of a log, in order. -/
def rawEvents (log : List Effect) : List Effect :=
  log.filter (fun e => match e with
    | Effect.hyprlandEvent _ _ => true
    | _ => false)

/-- The commands of the `sendRequest` calls of a log, in order. -/
def requestsIssued (log : List Effect) : List QString :=
  log.filterMap (fun e => match e with
    | Effect.sendRequest command => some command
    | _ => none)

/-- How often a log starts the debounce timer. -/
def timerStarts (log : List Effect) : Nat :=
  (log.filter (fun e => match e with
    | Effect.debounceTimerStart => true
    | _ => false)).length

/-- An effect that is neither a raw event, nor a `sendRequest` call, nor a start of the
debounce timer. -/
def Effect.isQuiet : Effect → Bool
  | Effect.hyprlandEvent _ _ => false
  | Effect.sendRequest _ => false
  | Effect.debounceTimerStart => false
  | _ => true

/-- The four pulls of one refresh cycle, in the order `requestData` issues them. -/
def refreshCycle : List QString :=
  ["clients", "workspaces", "monitors", "activeworkspace"]

/-- The names of the immediate category. -/
def immediateNames : List QString :=
  ["openwindow", "closewindow", "movewindow", "movewindowv2"]

/-- The names of the debounced category. -/
def debouncedNames : List QString :=
  ["workspace", "focusedmon", "activewindow", "changefloatingmode"]

/-- The event-socket read handler run on a sequence of reads, one after another. -/
def feed (fromJson : JsonParser) (fromUtf8 : Utf8Decoder) (self : HyprlandMonitor)
    (reads : List QByteArray) : HyprlandMonitor :=
  reads.foldl (HyprlandMonitor.onEventSocketReadyRead fromJson fromUtf8) self

/-! ## The debounce timer and the clock -/

/-- A single-shot `QTimer`: its interval in milliseconds and, while it is active, the time at
which it will time out. -/
structure QTimer where
  interval : Nat
  deadline : Option Nat
  deriving DecidableEq

namespace QTimer

/-- `QTimer::start()` at time `now`: the timer, stopped first if it was running, times out one
interval from now. -/
def start (timer : QTimer) (now : Nat) : QTimer :=
  { timer with deadline := some (now + timer.interval) }

/-- The timer after it has timed out: single-shot, so no longer active. -/
def timedOut (timer : QTimer) : QTimer :=
  { timer with deadline := none }

end QTimer

/-- The object together with its debounce timer, on a clock that counts milliseconds;
`fired` lists the times at which the timer timed out and ran its slot, `requestData`. -/
structure Clocked where
  self : HyprlandMonitor
  m_debounceTimer : QTimer
  fired : List Nat

namespace Clocked

/-- The debounce timer as the constructor sets it up (lines 36-39): single-shot, interval 50,
`timeout` connected to `requestData`; not started. -/
def debounceTimer : QTimer :=
  { interval := 50, deadline := none }

/-- Time passes until `now`: when the timer is due by then, it times out at its deadline and
its slot `requestData` runs. -/
def advance (fromJson : JsonParser) (c : Clocked) (now : Nat) : Clocked :=
  match c.m_debounceTimer.deadline with
  | none => c
  | some due =>
    if due ≤ now then
      { self := HyprlandMonitor.requestData fromJson c.self,
        m_debounceTimer := c.m_debounceTimer.timedOut,
        fired := c.fired ++ [due] }
    else c

/-- An event line arrives at time `now`: time passes until then, `processEvent` runs, and
when it called `m_debounceTimer->start()` the timer is restarted at `now`. -/
def event (fromJson : JsonParser) (c : Clocked) (arrival : Nat × QString) : Clocked :=
  let c := advance fromJson c arrival.1
  let self := HyprlandMonitor.processEvent fromJson c.self arrival.2
  { c with
    self := self,
    m_debounceTimer :=
      (if timerStarts c.self.log < timerStarts self.log then c.m_debounceTimer.start arrival.1
        else c.m_debounceTimer) }

/-- A sequence of event lines, each with its arrival time. -/
def run (fromJson : JsonParser) (c : Clocked) (arrivals : List (Nat × QString)) : Clocked :=
  arrivals.foldl (event fromJson) c

end Clocked

/-- The address of a window, read as the source reads it: the empty string when the window has
no `address` member that is a string. -/
def addressOf (val : QJsonValue) : QString :=
  (QJsonObject.value val.toObject "address").toString

/-- The id of a workspace, read as `workspaceById` reads it: 0 when the record has no `id`
member that is a whole number. -/
def idOf (val : QJsonValue) : Int :=
  (QJsonObject.value val.toObject "id").toInt 0

/-- A burst: each arrival comes no earlier than the one before it and less than 50 ms after
it. -/
def IsBurst (arrivals : List (Nat × QString)) : Prop :=
  List.Chain' (fun a b : Nat × QString => a.1 ≤ b.1 ∧ b.1 < a.1 + 50) arrivals

/-! ## Sample data -/

/-- The object as its constructor leaves it when no instance is found: every member
default-constructed, not connected; nothing scripted, nothing logged. -/
def HyprlandMonitor.init : HyprlandMonitor :=
  { m_windowList := [], m_workspaces := [], m_monitors := [], m_activeWorkspace := [],
    m_focusedMonitor := [], m_eventBuffer := [], m_connected := false, replies := [], log := [] }

/-- A window record with a size and a workspace id. -/
def sampleWindow (width height id : ℚ) : QJsonValue :=
  QJsonValue.object
    [("size", QJsonValue.array [QJsonValue.double width, QJsonValue.double height]),
     ("workspace", QJsonValue.object [("id", QJsonValue.double id)])]

/-- The three windows of the specification's example: 100x50 and 80x80 on workspace 3,
500x500 on workspace 4. -/
def sampleWindows : QJsonArray :=
  [sampleWindow 100 50 3, sampleWindow 80 80 3, sampleWindow 500 500 4]

/-- A 2x3 window without a `workspace` member, followed by a 1x1 window of workspace 0. -/
def strayWindows : QJsonArray :=
  [QJsonValue.object [("size", QJsonValue.array [QJsonValue.double 2, QJsonValue.double 3])],
   sampleWindow 1 1 0]

/-- A window of workspace 3 that reports the size 3000000000x1, before a 1x1 window of the
same workspace. -/
def hugeWindows : QJsonArray :=
  [sampleWindow 3000000000 1 3, sampleWindow 1 1 3]

/-- A window of workspace 3 that reports the size 46341x46341, whose product no `int` holds,
before a 1x1 window of the same workspace. -/
def overflowWindows : QJsonArray :=
  [sampleWindow 46341 46341 3, sampleWindow 1 1 3]

/-- A window of workspace 3 whose size is 0x700, alone with a window of workspace 4. -/
def flatWindows : QJsonArray :=
  [sampleWindow 0 700 3, sampleWindow 500 500 4]

/-- A monitor record with a name and a focused marker. -/
def sampleMonitor (name : QString) (focused : Bool) : QJsonValue :=
  QJsonValue.object [("focused", QJsonValue.bool focused), ("name", QJsonValue.string name)]

/-- A stand-in parser for the examples: the one-byte payloads 1 to 4 decode to fixed
documents, every other payload is malformed. -/
def sampleParser : JsonParser := fun data =>
  match data with
  | [1] => some (QJsonDocument.array [sampleMonitor "A" false, sampleMonitor "B" true])
  | [2] => some (QJsonDocument.array [sampleMonitor "A" false, sampleMonitor "B" false])
  | [3] => some (QJsonDocument.object [("id", QJsonValue.double 7)])
  | [4] => some (QJsonDocument.array sampleWindows)
  | _ => none

/-- The bytes of a text written in ASCII. -/
def asciiBytes (text : String) : QByteArray :=
  text.data.map (fun c => c.toNat.toUInt8)

/-- A decoder for the examples: every byte is read as the character with its code. -/
def sampleDecoder : Utf8Decoder := fun bytes =>
  String.mk (bytes.map (fun b => Char.ofNat b.toNat))

/-- A window record with an address and a title. -/
def titledWindow (address title : QString) : QJsonValue :=
  QJsonValue.object
    [("address", QJsonValue.string address), ("title", QJsonValue.string title)]

/-- A record with a title and nothing else: no address, no id. -/
def bareRecord (title : QString) : QJsonValue :=
  QJsonValue.object [("title", QJsonValue.string title)]

/-- Two windows that report the same address. -/
def twinWindows : QJsonArray :=
  [titledWindow "0x1" "first", titledWindow "0x1" "second"]

namespace QJsonObject

theorem value_insert_self (o : QJsonObject) (k : QString) (v : QJsonValue) :
    value (insert o k v) k = v := by
  induction o with
  | nil => simp [insert, value]
  | cons p rest ih =>
    obtain ⟨k', w⟩ := p
    by_cases h : k' = k
    · simp [insert, value, h]
    · by_cases h2 : k.data < k'.data
      · simp [insert, value, h, h2]
      · simp [insert, value, h, h2, ih]

theorem value_insert_ne (o : QJsonObject) (k k' : QString) (v : QJsonValue) (hk : k ≠ k') :
    value (insert o k v) k' = value o k' := by
  induction o with
  | nil => simp [insert, value, hk]
  | cons p rest ih =>
    obtain ⟨k0, w⟩ := p
    by_cases h : k0 = k
    · subst h
      simp [insert, value, hk]
    · by_cases h2 : k.data < k0.data
      · simp [insert, value, h, h2, hk]
      · simp [insert, value, h, h2, ih]

theorem contains_insert_self (o : QJsonObject) (k : QString) (v : QJsonValue) :
    contains (insert o k v) k = true := by
  induction o with
  | nil => simp [insert, contains]
  | cons p rest ih =>
    obtain ⟨k', w⟩ := p
    by_cases h : k' = k
    · simp [insert, contains, h]
    · by_cases h2 : k.data < k'.data
      · simp [insert, contains, h, h2]
      · simp [insert, contains, h, h2, ih]

theorem contains_insert_ne (o : QJsonObject) (k k' : QString) (v : QJsonValue) (hk : k ≠ k') :
    contains (insert o k v) k' = contains o k' := by
  induction o with
  | nil => simp [insert, contains, hk]
  | cons p rest ih =>
    obtain ⟨k0, w⟩ := p
    by_cases h : k0 = k
    · subst h
      simp [insert, contains, hk]
    · by_cases h2 : k.data < k0.data
      · simp [insert, contains, h, h2, hk]
      · simp [insert, contains, h, h2, ih]

theorem value_of_not_contains (o : QJsonObject) (k : QString) (h : contains o k = false) :
    value o k = QJsonValue.undefined := by
  induction o with
  | nil => simp [value]
  | cons p rest ih =>
    obtain ⟨k', w⟩ := p
    by_cases hk : k' = k
    · simp [contains, hk] at h
    · simp [contains, hk] at h
      simp [value, hk, ih h]

theorem contains_ne_nil (o : QJsonObject) (k : QString) (h : contains o k = true) : o ≠ [] := by
  intro e
  subst e
  simp [contains] at h

theorem touch_of_contains (o : QJsonObject) (k : QString) (h : contains o k = true) :
    touch o k = o := by
  simp [touch, h]

theorem contains_touch_self (o : QJsonObject) (k : QString) : contains (touch o k) k = true := by
  unfold touch
  by_cases h : contains o k = true
  · simp [h]
  · simp [h, contains_insert_self]

theorem contains_touch_ne (o : QJsonObject) (k k' : QString) (hk : k ≠ k') :
    contains (touch o k) k' = contains o k' := by
  unfold touch
  by_cases h : contains o k = true
  · simp [h]
  · simp [h, contains_insert_ne o k k' _ hk]

theorem value_touch_ne (o : QJsonObject) (k k' : QString) (hk : k ≠ k') :
    value (touch o k) k' = value o k' := by
  unfold touch
  by_cases h : contains o k = true
  · simp [h]
  · simp [h, value_insert_ne o k k' _ hk]

/-- Reading through the non-const `operator[]` gives the member's value, or `Null` where the
const read gives `Undefined`. -/
theorem value_touch_self (o : QJsonObject) (k : QString) :
    value (touch o k) k = (if contains o k then value o k else QJsonValue.null) := by
  unfold touch
  by_cases h : contains o k = true
  · simp [h]
  · simp [h, value_insert_self]

theorem toObject_value_touch (o : QJsonObject) (k : QString) :
    (value (touch o k) k).toObject = (value o k).toObject := by
  rw [value_touch_self]
  by_cases h : contains o k = true
  · simp [h]
  · simp only [Bool.not_eq_true] at h
    simp [h, value_of_not_contains o k h, QJsonValue.toObject]

theorem toArray_value_touch (o : QJsonObject) (k : QString) :
    (value (touch o k) k).toArray = (value o k).toArray := by
  rw [value_touch_self]
  by_cases h : contains o k = true
  · simp [h]
  · simp only [Bool.not_eq_true] at h
    simp [h, value_of_not_contains o k h, QJsonValue.toArray]

theorem toInt_value_touch (o : QJsonObject) (k : QString) (d : Int) :
    (value (touch o k) k).toInt d = (value o k).toInt d := by
  rw [value_touch_self]
  by_cases h : contains o k = true
  · simp [h]
  · simp only [Bool.not_eq_true] at h
    simp [h, value_of_not_contains o k h, QJsonValue.toInt]

theorem toBool_value_touch (o : QJsonObject) (k : QString) :
    (value (touch o k) k).toBool = (value o k).toBool := by
  rw [value_touch_self]
  by_cases h : contains o k = true
  · simp [h]
  · simp only [Bool.not_eq_true] at h
    simp [h, value_of_not_contains o k h, QJsonValue.toBool]

theorem toString_value_touch (o : QJsonObject) (k : QString) :
    (value (touch o k) k).toString = (value o k).toString := by
  rw [value_touch_self]
  by_cases h : contains o k = true
  · simp [h]
  · simp only [Bool.not_eq_true] at h
    simp [h, value_of_not_contains o k h, QJsonValue.toString]

end QJsonObject

/-! ## `biggestWindowForWorkspace` -/

/-- A whole number that fits an `int` is what `toInt` returns. -/
theorem toInt_of_wholeNumber (v : QJsonValue) (n d : Int) (h : v.wholeNumber = some n)
    (hfit : FitsInt n) : v.toInt d = n := by
  cases v with
  | double q =>
    simp only [QJsonValue.wholeNumber] at h
    by_cases hden : q.den = 1
    · rw [if_pos hden] at h
      have hn : q.num = n := by simpa using h
      simp only [QJsonValue.toInt]
      rw [if_pos ⟨hden, by rw [hn]; exact hfit.1, by rw [hn]; exact hfit.2⟩, hn]
    · rw [if_neg hden] at h
      cases h
  | _ => simp [QJsonValue.wholeNumber] at h

/-- When `toInt` returns something other than the default, the value is that whole number. -/
theorem wholeNumber_of_toInt (v : QJsonValue) (n d : Int) (h : v.toInt d = n) (hne : n ≠ d) :
    v.wholeNumber = some n := by
  cases v with
  | double q =>
    simp only [QJsonValue.toInt] at h
    by_cases hc : q.den = 1 ∧ -2147483648 ≤ q.num ∧ q.num ≤ 2147483647
    · rw [if_pos hc] at h
      simp only [QJsonValue.wholeNumber]
      rw [if_pos hc.1, h]
    · rw [if_neg hc] at h
      exact absurd h.symm hne
  | _ => exact absurd (show d = n from h).symm hne

/-- The loop's test of line 234 agrees with the embedded workspace id, for an `int` argument and,
when that is 0, a window that has an embedded workspace id. -/
theorem reads_id_iff (val : QJsonValue) (workspaceId : Int) (hfit : FitsInt workspaceId)
    (hzero : workspaceId = 0 → HasWorkspaceId val) :
    (QJsonObject.value (QJsonObject.value val.toObject "workspace").toObject "id").toInt 0 =
        workspaceId ↔ embeddedWorkspaceId val = some workspaceId := by
  constructor
  · intro h
    by_cases h0 : workspaceId = 0
    · obtain ⟨n, hn, hnfit⟩ := hzero h0
      have hn' : embeddedWorkspaceId val = some n := hn
      have := toInt_of_wholeNumber _ n 0 hn' hnfit
      rw [hn', ← this, h]
    · exact wholeNumber_of_toInt _ workspaceId 0 h h0
  · intro h
    exact toInt_of_wholeNumber _ workspaceId 0 h hfit

/-- A window with an embedded workspace id has a `workspace` member. -/
theorem contains_workspace_of_embedded (val : QJsonValue) (n : Int)
    (h : embeddedWorkspaceId val = some n) :
    QJsonObject.contains val.toObject "workspace" = true := by
  by_contra hn
  simp only [Bool.not_eq_true] at hn
  unfold embeddedWorkspaceId at h
  rw [QJsonObject.value_of_not_contains _ _ hn] at h
  cases h

/-- A window with size entries has a `size` member. -/
theorem contains_size_of_entries (val : QJsonValue) (p : Int × Int)
    (h : sizeEntries val = some p) : QJsonObject.contains val.toObject "size" = true := by
  by_contra hn
  simp only [Bool.not_eq_true] at hn
  unfold sizeEntries at h
  rw [QJsonObject.value_of_not_contains _ _ hn] at h
  cases h

/-- The size entries are the first two elements of the `size` array. -/
theorem size_of_entries (val : QJsonValue) (w h : Int) (hs : sizeEntries val = some (w, h)) :
    ∃ width height rest, (QJsonObject.value val.toObject "size").toArray =
        width :: height :: rest ∧ width.wholeNumber = some w ∧ height.wholeNumber = some h := by
  unfold sizeEntries at hs
  cases ha : (QJsonObject.value val.toObject "size").toArray with
  | nil => rw [ha] at hs; cases hs
  | cons width tail =>
    cases tail with
    | nil => rw [ha] at hs; cases hs
    | cons height rest =>
      rw [ha] at hs
      simp only at hs
      cases hw : width.wholeNumber with
      | none => rw [hw] at hs; cases hs
      | some w' =>
        cases hh : height.wholeNumber with
        | none => rw [hw, hh] at hs; cases hs
        | some h' =>
          rw [hw, hh] at hs
          simp only [Option.some.injEq, Prod.mk.injEq] at hs
          exact ⟨width, height, rest, rfl, hs.1 ▸ hw, hs.2 ▸ hh⟩

theorem areaOf_of_entries (val : QJsonValue) (w h : Int) (hs : sizeEntries val = some (w, h)) :
    areaOf val = w * h := by
  unfold areaOf
  rw [hs]

theorem wrapInt_of_fits (n : Int) (h : FitsInt n) : wrapInt n = n := by
  unfold wrapInt
  obtain ⟨h1, h2⟩ := h
  omega

namespace HyprlandMonitor

/-- The test of line 234, as `biggestStep` evaluates it on its working copies. -/
theorem biggestStep_test (val : QJsonValue) :
    (QJsonObject.ref (QJsonObject.value (QJsonObject.touch val.toObject "workspace")
      "workspace").toObject "id").toInt 0 =
    (QJsonObject.value (QJsonObject.value val.toObject "workspace").toObject "id").toInt 0 := by
  unfold QJsonObject.ref
  rw [QJsonObject.toInt_value_touch, QJsonObject.toObject_value_touch]

/-- A window of another workspace leaves the pair as it is. -/
theorem biggestStep_of_other (workspaceId : Int) (acc : QJsonObject × Int) (val : QJsonValue)
    (hfit : FitsInt workspaceId) (hzero : workspaceId = 0 → HasWorkspaceId val)
    (h : embeddedWorkspaceId val ≠ some workspaceId) :
    biggestStep workspaceId acc val = some acc := by
  unfold biggestStep
  simp only [biggestStep_test]
  rw [if_neg (fun e => h ((reads_id_iff val workspaceId hfit hzero).mp e))]

/-- A window of the asked workspace whose size fits an `int`: it replaces the pair exactly when
its area exceeds the running maximum, and the object kept is the window as it stands. -/
theorem biggestStep_of_match (workspaceId : Int) (acc : QJsonObject × Int) (val : QJsonValue)
    (hfit : FitsInt workspaceId) (h : embeddedWorkspaceId val = some workspaceId)
    (hsize : HasIntSize val) :
    biggestStep workspaceId acc val =
      some (if acc.2 < areaOf val then (val.toObject, areaOf val) else acc) := by
  obtain ⟨p, hp, hw, hh, hprod⟩ := hsize
  obtain ⟨w, h'⟩ := p
  have hp' : sizeEntries val = some (w, h') := hp
  obtain ⟨width, height, rest, harr, hwidth, hheight⟩ := size_of_entries val w h' hp'
  have hcw := contains_workspace_of_embedded val workspaceId h
  have hcs := contains_size_of_entries val (w, h') hp'
  have htest := (reads_id_iff val workspaceId hfit
    (fun _ => ⟨workspaceId, h, hfit⟩)).mpr h
  unfold biggestStep
  simp only [biggestStep_test]
  rw [if_pos htest, QJsonObject.touch_of_contains _ _ hcw, QJsonObject.touch_of_contains _ _ hcs,
    harr]
  simp only [QJsonArray.index, List.get?_cons_zero, List.get?_cons_succ]
  rw [toInt_of_wholeNumber width w 0 hwidth hw, toInt_of_wholeNumber height h' 0 hheight hh,
    wrapInt_of_fits _ hprod, areaOf_of_entries val w h' hp']
  simp only [gt_iff_lt]
  split <;> rfl

/-- The loop of `biggestWindowForWorkspace` on a list within the `int` range, started from any
pair: either no window of the asked workspace beats the starting maximum and the pair is
returned as it was, or the list splits around the first window of the asked workspace with
the largest area, and that window is returned as it stands. -/
theorem biggestLoop_spec (workspaceId : Int) (l : List QJsonValue) (acc : QJsonObject × Int)
    (hfit : FitsInt workspaceId)
    (hsize : ∀ v ∈ l, embeddedWorkspaceId v = some workspaceId → HasIntSize v)
    (hzero : workspaceId = 0 → ∀ v ∈ l, HasWorkspaceId v) :
    ((∀ x ∈ l, embeddedWorkspaceId x = some workspaceId → areaOf x ≤ acc.2) ∧
        biggestLoop workspaceId l acc = some acc) ∨
      ∃ pre e post, l = pre ++ e :: post ∧ embeddedWorkspaceId e = some workspaceId ∧
        acc.2 < areaOf e ∧
        (∀ x ∈ pre, embeddedWorkspaceId x = some workspaceId → areaOf x < areaOf e) ∧
        (∀ x ∈ post, embeddedWorkspaceId x = some workspaceId → areaOf x ≤ areaOf e) ∧
        biggestLoop workspaceId l acc = some (e.toObject, areaOf e) := by
  induction l generalizing acc with
  | nil => left; exact ⟨by simp, rfl⟩
  | cons v rest ih =>
    have hsize' : ∀ x ∈ rest, embeddedWorkspaceId x = some workspaceId → HasIntSize x :=
      fun x hx => hsize x (List.mem_cons_of_mem v hx)
    have hzero' : workspaceId = 0 → ∀ x ∈ rest, HasWorkspaceId x :=
      fun h0 x hx => hzero h0 x (List.mem_cons_of_mem v hx)
    unfold biggestLoop
    by_cases hm : embeddedWorkspaceId v = some workspaceId
    · rw [biggestStep_of_match workspaceId acc v hfit hm
        (hsize v (List.mem_cons_self v rest) hm)]
      simp only
      by_cases hlt : acc.2 < areaOf v
      · rw [if_pos hlt]
        right
        rcases ih (v.toObject, areaOf v) hsize' hzero' with
          ⟨hall, hres⟩ | ⟨pre, e, post, hl, hid, hgt, hpre, hpost, hres⟩
        · exact ⟨[], v, rest, rfl, hm, hlt, by simp, hall, hres⟩
        · refine ⟨v :: pre, e, post, by simp [hl], hid, ?_, ?_, hpost, hres⟩
          · simp only at hgt
            omega
          · intro x hx hxid
            rcases List.mem_cons.mp hx with rfl | hx
            · exact hgt
            · exact hpre x hx hxid
      · rw [if_neg hlt]
        rcases ih acc hsize' hzero' with
          ⟨hall, hres⟩ | ⟨pre, e, post, hl, hid, hgt, hpre, hpost, hres⟩
        · left
          refine ⟨?_, hres⟩
          intro x hx hxid
          rcases List.mem_cons.mp hx with rfl | hx
          · omega
          · exact hall x hx hxid
        · right
          refine ⟨v :: pre, e, post, by simp [hl], hid, hgt, ?_, hpost, hres⟩
          intro x hx hxid
          rcases List.mem_cons.mp hx with rfl | hx
          · omega
          · exact hpre x hx hxid
    · rw [biggestStep_of_other workspaceId acc v hfit
        (fun h0 => hzero h0 v (List.mem_cons_self v rest)) hm]
      simp only
      rcases ih acc hsize' hzero' with
        ⟨hall, hres⟩ | ⟨pre, e, post, hl, hid, hgt, hpre, hpost, hres⟩
      · left
        refine ⟨?_, hres⟩
        intro x hx hxid
        rcases List.mem_cons.mp hx with rfl | hx
        · exact absurd hxid hm
        · exact hall x hx hxid
      · right
        refine ⟨v :: pre, e, post, by simp [hl], hid, hgt, ?_, hpost, hres⟩
        intro x hx hxid
        rcases List.mem_cons.mp hx with rfl | hx
        · exact absurd hxid hm
        · exact hpre x hx hxid

/-- Windows of other workspaces leave the pair as it is, so they can be dropped up front. -/
theorem biggestLoop_filter (workspaceId : Int) (l : List QJsonValue) (acc : QJsonObject × Int)
    (hfit : FitsInt workspaceId) (hzero : workspaceId = 0 → ∀ v ∈ l, HasWorkspaceId v) :
    biggestLoop workspaceId
        (l.filter (fun x => decide (embeddedWorkspaceId x = some workspaceId))) acc =
      biggestLoop workspaceId l acc := by
  induction l generalizing acc with
  | nil => rfl
  | cons v rest ih =>
    have hzero' : workspaceId = 0 → ∀ x ∈ rest, HasWorkspaceId x :=
      fun h0 x hx => hzero h0 x (List.mem_cons_of_mem v hx)
    by_cases hm : embeddedWorkspaceId v = some workspaceId
    · simp only [List.filter_cons, hm, decide_True, if_true]
      unfold biggestLoop
      cases biggestStep workspaceId acc v with
      | none => rfl
      | some next => exact ih next hzero'
    · simp only [List.filter_cons, hm, decide_False]
      conv_rhs => unfold biggestLoop
      rw [biggestStep_of_other workspaceId acc v hfit
        (fun h0 => hzero h0 v (List.mem_cons_self v rest)) hm]
      exact ih acc hzero'

end HyprlandMonitor

/-! ## Claims on `biggestWindowForWorkspace` -/

/-- Outside the domain of the claims, first case: a record without a `workspace` member is
read as a window of workspace 0, and the object returned carries an added `null` member. -/
theorem biggestWindowForWorkspace_reads_missing_workspace_as_zero :
    (∀ v ∈ strayWindows, embeddedWorkspaceId v = some 0 → v = sampleWindow 1 1 0) ∧
      HyprlandMonitor.biggestWindowForWorkspace
          { HyprlandMonitor.init with m_windowList := strayWindows } 0 =
        some [("size", QJsonValue.array [QJsonValue.double 2, QJsonValue.double 3]),
          ("workspace", QJsonValue.null)] := by
  decide

/-- Outside the domain of the claims, second case: a window of the asked workspace without a
`size` makes the loop index an empty array, and the call has no defined result. -/
theorem biggestWindowForWorkspace_undefined_without_size :
    HyprlandMonitor.biggestWindowForWorkspace
        { HyprlandMonitor.init with m_windowList :=
            [QJsonValue.object [("workspace", QJsonValue.object [("id", QJsonValue.double 3)])]] }
        3 = none := by
  decide

/-- C1 (as amended): on a window list within the `int` range (see `WithinInt`), whenever some
window whose embedded workspace id equals the argument has positive area,
`biggestWindowForWorkspace` returns the first window in list order, among the windows whose
embedded workspace id equals the argument, whose area (the integer product of the two entries
of its size) is maximal among them; and dropping the windows of all other workspaces from the
list does not change the result. -/
theorem biggestWindowForWorkspace_first_of_largest_area (self : HyprlandMonitor)
    (workspaceId : Int) (hdom : WithinInt self.m_windowList workspaceId)
    (h : ∃ v ∈ self.m_windowList, embeddedWorkspaceId v = some workspaceId ∧ 0 < areaOf v) :
    (∃ pre e post, self.m_windowList = pre ++ e :: post ∧
        embeddedWorkspaceId e = some workspaceId ∧ 0 < areaOf e ∧
        (∀ x ∈ pre, embeddedWorkspaceId x = some workspaceId → areaOf x < areaOf e) ∧
        (∀ x ∈ post, embeddedWorkspaceId x = some workspaceId → areaOf x ≤ areaOf e) ∧
        HyprlandMonitor.biggestWindowForWorkspace self workspaceId = some e.toObject) ∧
      HyprlandMonitor.biggestWindowForWorkspace
        { self with m_windowList :=
            (self.m_windowList.filter
              (fun x => decide (embeddedWorkspaceId x = some workspaceId))) }
        workspaceId = HyprlandMonitor.biggestWindowForWorkspace self workspaceId := by
  obtain ⟨hfit, hsize, hzero⟩ := hdom
  refine ⟨?_, ?_⟩
  · unfold HyprlandMonitor.biggestWindowForWorkspace
    rcases HyprlandMonitor.biggestLoop_spec workspaceId self.m_windowList ([], 0) hfit hsize
      hzero with ⟨hall, _⟩ | ⟨pre, e, post, hl, hid, hlt, hpre, hpost, hres⟩
    · obtain ⟨v, hv, hvid, hpos⟩ := h
      have := hall v hv hvid
      simp only at this
      omega
    · exact ⟨pre, e, post, hl, hid, hlt, hpre, hpost, by rw [hres]⟩
  · unfold HyprlandMonitor.biggestWindowForWorkspace
    simp only
    rw [HyprlandMonitor.biggestLoop_filter workspaceId self.m_windowList ([], 0) hfit hzero]

/-- C1, witness: on the specification's three windows the call with id 3 returns the 80x80
window. -/
theorem biggestWindowForWorkspace_first_of_largest_area_witness :
    HyprlandMonitor.biggestWindowForWorkspace
        { HyprlandMonitor.init with m_windowList := sampleWindows } 3 =
      some (sampleWindow 80 80 3).toObject ∧
    HyprlandMonitor.biggestWindowForWorkspace
        { HyprlandMonitor.init with m_windowList :=
            (sampleWindows.filter (fun x => decide (embeddedWorkspaceId x = some 3))) } 3 =
      HyprlandMonitor.biggestWindowForWorkspace
        { HyprlandMonitor.init with m_windowList := sampleWindows } 3 :=
  ⟨by decide,
    (biggestWindowForWorkspace_first_of_largest_area
      { HyprlandMonitor.init with m_windowList := sampleWindows } 3 (by decide)
      ⟨sampleWindow 80 80 3, by decide, by decide, by decide⟩).2⟩

/-- C1, counterexample: in `hugeWindows` both windows have the embedded workspace id 3 and
the first, 3000000000x1, has the largest area, yet the call with id 3 returns the second, the
1x1 window: an entry that no `int` holds is read as 0. The same happens in `overflowWindows`,
where the entries 46341 and 46341 fit an `int` and their product does not. -/
theorem biggestWindowForWorkspace_misses_huge_window :
    ((∃ v ∈ hugeWindows, embeddedWorkspaceId v = some 3 ∧ 0 < areaOf v) ∧
      (∀ x ∈ hugeWindows, embeddedWorkspaceId x = some 3 →
        areaOf x ≤ areaOf (sampleWindow 3000000000 1 3)) ∧
      areaOf (sampleWindow 1 1 3) < areaOf (sampleWindow 3000000000 1 3) ∧
      HyprlandMonitor.biggestWindowForWorkspace
          { HyprlandMonitor.init with m_windowList := hugeWindows } 3 =
        some (sampleWindow 1 1 3).toObject) ∧
    ((∀ x ∈ overflowWindows, embeddedWorkspaceId x = some 3 →
        areaOf x ≤ areaOf (sampleWindow 46341 46341 3)) ∧
      areaOf (sampleWindow 1 1 3) < areaOf (sampleWindow 46341 46341 3) ∧
      HyprlandMonitor.biggestWindowForWorkspace
          { HyprlandMonitor.init with m_windowList := overflowWindows } 3 =
        some (sampleWindow 1 1 3).toObject) := by
  decide

/-- C2 (as amended): on a window list within the `int` range (see `WithinInt`),
`biggestWindowForWorkspace` returns an object, and that is the empty object exactly when no
window whose embedded workspace id equals the argument has an area above zero; so a snapshot
whose windows of that workspace all have area zero gives the same result as any snapshot with
no window of that workspace. -/
theorem biggestWindowForWorkspace_empty_iff (self : HyprlandMonitor) (workspaceId : Int)
    (hdom : WithinInt self.m_windowList workspaceId) :
    (HyprlandMonitor.biggestWindowForWorkspace self workspaceId).isSome = true ∧
      (HyprlandMonitor.biggestWindowForWorkspace self workspaceId = some [] ↔
        ¬ ∃ v ∈ self.m_windowList, embeddedWorkspaceId v = some workspaceId ∧ 0 < areaOf v) ∧
      ((∀ v ∈ self.m_windowList, embeddedWorkspaceId v = some workspaceId → areaOf v = 0) →
        ∀ other : HyprlandMonitor, WithinInt other.m_windowList workspaceId →
          (∀ v ∈ other.m_windowList, embeddedWorkspaceId v ≠ some workspaceId) →
          HyprlandMonitor.biggestWindowForWorkspace self workspaceId =
            HyprlandMonitor.biggestWindowForWorkspace other workspaceId) := by
  have key : ∀ m : HyprlandMonitor, WithinInt m.m_windowList workspaceId →
      (HyprlandMonitor.biggestWindowForWorkspace m workspaceId).isSome = true ∧
      (HyprlandMonitor.biggestWindowForWorkspace m workspaceId = some [] ↔
        ¬ ∃ v ∈ m.m_windowList, embeddedWorkspaceId v = some workspaceId ∧ 0 < areaOf v) := by
    intro m hm
    obtain ⟨hfit, hsize, hzero⟩ := hm
    unfold HyprlandMonitor.biggestWindowForWorkspace
    rcases HyprlandMonitor.biggestLoop_spec workspaceId m.m_windowList ([], 0) hfit hsize
      hzero with ⟨hall, hres⟩ | ⟨pre, e, post, hl, hid, hlt, _, _, hres⟩
    · rw [hres]
      refine ⟨rfl, fun _ => ?_, fun _ => rfl⟩
      rintro ⟨v, hv, hvid, hpos⟩
      have := hall v hv hvid
      simp only at this
      omega
    · rw [hres]
      refine ⟨rfl, ?_, ?_⟩
      · intro hnil
        obtain ⟨p, hp, _⟩ := hsize e (by simp [hl]) hid
        have hc := contains_size_of_entries e p hp
        simp only [Option.some.injEq] at hnil
        exact absurd hnil (QJsonObject.contains_ne_nil _ "size" hc)
      · intro hno
        exact absurd ⟨e, by simp [hl], hid, hlt⟩ hno
  refine ⟨(key self hdom).1, (key self hdom).2, ?_⟩
  intro hzero other hother hnone
  rw [(key self hdom).2.mpr, (key other hother).2.mpr]
  · rintro ⟨v, hv, hvid, _⟩
    exact hnone v hv hvid
  · rintro ⟨v, hv, hvid, hpos⟩
    have := hzero v hv hvid
    omega

/-- C2, witness: a 0x700 window of workspace 3 gives the empty object for id 3, as a list with
no window of workspace 3 does, and the specification's three windows do not. -/
theorem biggestWindowForWorkspace_empty_iff_witness :
    HyprlandMonitor.biggestWindowForWorkspace
        { HyprlandMonitor.init with m_windowList := flatWindows } 3 = some [] ∧
      HyprlandMonitor.biggestWindowForWorkspace
          { HyprlandMonitor.init with m_windowList := flatWindows } 3 =
        HyprlandMonitor.biggestWindowForWorkspace
          { HyprlandMonitor.init with m_windowList := [sampleWindow 500 500 4] } 3 ∧
      HyprlandMonitor.biggestWindowForWorkspace
        { HyprlandMonitor.init with m_windowList := sampleWindows } 3 ≠ some [] :=
  ⟨(biggestWindowForWorkspace_empty_iff
      { HyprlandMonitor.init with m_windowList := flatWindows } 3 (by decide)).2.1.mpr
      (by decide),
    (biggestWindowForWorkspace_empty_iff
      { HyprlandMonitor.init with m_windowList := flatWindows } 3 (by decide)).2.2
      (by decide) { HyprlandMonitor.init with m_windowList := [sampleWindow 500 500 4] }
      (by decide) (by decide),
    fun hnil => (biggestWindowForWorkspace_empty_iff
      { HyprlandMonitor.init with m_windowList := sampleWindows } 3 (by decide)).2.1.mp hnil
      ⟨sampleWindow 80 80 3, by decide, by decide, by decide⟩⟩

/-- C2, counterexample: the one window of the list has the embedded workspace id 3 and the
area 3000000000, above zero, yet the call with id 3 returns the empty object; and so it does
for the one window 65536x65536, whose entries fit an `int` and whose product does not. -/
theorem biggestWindowForWorkspace_empty_despite_area :
    ((∃ v ∈ [sampleWindow 3000000000 1 3],
        embeddedWorkspaceId v = some 3 ∧ 0 < areaOf v) ∧
      HyprlandMonitor.biggestWindowForWorkspace
          { HyprlandMonitor.init with m_windowList := [sampleWindow 3000000000 1 3] } 3 =
        some []) ∧
    ((∃ v ∈ [sampleWindow 65536 65536 3],
        embeddedWorkspaceId v = some 3 ∧ 0 < areaOf v) ∧
      HyprlandMonitor.biggestWindowForWorkspace
          { HyprlandMonitor.init with m_windowList := [sampleWindow 65536 65536 3] } 3 =
        some []) := by
  decide
/-! ## Pulls: `updateFocusedMonitor`, `parseResponse`, `sendRequest`, `requestData` -/

namespace HyprlandMonitor

/-- The scan of `updateFocusedMonitor` touches `m_focusedMonitor` and the log only. -/
theorem updateFocusedMonitorFrom_frame (self : HyprlandMonitor) (l : List QJsonValue) :
    (updateFocusedMonitorFrom self l).m_windowList = self.m_windowList ∧
      (updateFocusedMonitorFrom self l).m_workspaces = self.m_workspaces ∧
      (updateFocusedMonitorFrom self l).m_monitors = self.m_monitors ∧
      (updateFocusedMonitorFrom self l).m_activeWorkspace = self.m_activeWorkspace ∧
      (updateFocusedMonitorFrom self l).m_eventBuffer = self.m_eventBuffer ∧
      (updateFocusedMonitorFrom self l).m_connected = self.m_connected ∧
      (updateFocusedMonitorFrom self l).replies = self.replies := by
  induction l with
  | nil => simp [updateFocusedMonitorFrom]
  | cons v rest ih =>
    unfold updateFocusedMonitorFrom
    simp only
    split
    · simp [emit]
    · exact ih

/-- The scan of `updateFocusedMonitor` leaves in `m_focusedMonitor` the first focused monitor
of the list, or what was there when the list has none. -/
theorem updateFocusedMonitorFrom_focused (self : HyprlandMonitor) (l : List QJsonValue) :
    (updateFocusedMonitorFrom self l).m_focusedMonitor = firstFocused l self.m_focusedMonitor := by
  induction l with
  | nil => simp [updateFocusedMonitorFrom, firstFocused]
  | cons v rest ih =>
    unfold updateFocusedMonitorFrom
    simp only
    have hb : (QJsonObject.value (QJsonObject.touch v.toObject "focused") "focused").toBool =
        isFocused v := QJsonObject.toBool_value_touch _ _
    rw [hb]
    by_cases hf : isFocused v = true
    · have hc : QJsonObject.contains v.toObject "focused" = true := by
        by_contra hn
        simp only [Bool.not_eq_true] at hn
        unfold isFocused at hf
        rw [QJsonObject.value_of_not_contains _ _ hn] at hf
        simp [QJsonValue.toBool] at hf
      simp [hf, emit, firstFocused, List.find?, QJsonObject.touch_of_contains _ _ hc]
    · simp only [Bool.not_eq_true] at hf
      simp only [hf, Bool.false_eq_true, if_false]
      rw [ih]
      simp [firstFocused, List.find?, hf]

end HyprlandMonitor

namespace HyprlandMonitor

/-- A payload that fails to parse leaves the object as it is. -/
theorem parseResponse_of_error (fromJson : JsonParser) (self : HyprlandMonitor)
    (data : QByteArray) (type : QString) (h : fromJson data = none) :
    parseResponse fromJson self data type = self := by
  simp [parseResponse, h]

/-- A decoded array in answer to `clients`. -/
theorem parseResponse_clients_array (fromJson : JsonParser) (self : HyprlandMonitor)
    (data : QByteArray) (a : QJsonArray) (h : fromJson data = some (QJsonDocument.array a)) :
    parseResponse fromJson self data "clients" =
      ({ self with m_windowList := a }).emit Effect.windowListChanged := by
  simp [parseResponse, h, QJsonDocument.isArray, QJsonDocument.toArray]

/-- A decoded array in answer to `workspaces`. -/
theorem parseResponse_workspaces_array (fromJson : JsonParser) (self : HyprlandMonitor)
    (data : QByteArray) (a : QJsonArray) (h : fromJson data = some (QJsonDocument.array a)) :
    parseResponse fromJson self data "workspaces" =
      ({ self with m_workspaces := a }).emit Effect.workspacesChanged := by
  simp [parseResponse, h, QJsonDocument.isArray, QJsonDocument.toArray]

/-- A decoded array in answer to `monitors`. -/
theorem parseResponse_monitors_array (fromJson : JsonParser) (self : HyprlandMonitor)
    (data : QByteArray) (a : QJsonArray) (h : fromJson data = some (QJsonDocument.array a)) :
    parseResponse fromJson self data "monitors" =
      (updateFocusedMonitor { self with m_monitors := a }).emit Effect.monitorsChanged := by
  simp [parseResponse, h, QJsonDocument.isArray, QJsonDocument.toArray]

/-- A decoded object in answer to `activeworkspace`. -/
theorem parseResponse_activeworkspace_object (fromJson : JsonParser) (self : HyprlandMonitor)
    (data : QByteArray) (o : QJsonObject) (h : fromJson data = some (QJsonDocument.object o)) :
    parseResponse fromJson self data "activeworkspace" =
      ({ self with m_activeWorkspace := o }).emit Effect.activeWorkspaceChanged := by
  simp [parseResponse, h, QJsonDocument.isArray, QJsonDocument.isObject,
    QJsonDocument.toObject]

/-- A document of the wrong shape for the request leaves the object as it is. -/
theorem parseResponse_of_wrong_shape (fromJson : JsonParser) (self : HyprlandMonitor)
    (data : QByteArray) (type : QString) (doc : QJsonDocument)
    (h : fromJson data = some doc)
    (hshape : (type = "clients" ∨ type = "workspaces" ∨ type = "monitors") ∧
        doc.isArray = false ∨ type = "activeworkspace" ∧ doc.isObject = false) :
    parseResponse fromJson self data type = self := by
  rcases hshape with ⟨ht, hd⟩ | ⟨ht, hd⟩
  · rcases ht with rfl | rfl | rfl <;> simp [parseResponse, h, hd]
  · subst ht
    simp [parseResponse, h, hd]

end HyprlandMonitor

namespace HyprlandMonitor

/-- What `parseResponse` leaves in each snapshot field, for any request type. -/
theorem parseResponse_fields (fromJson : JsonParser) (self : HyprlandMonitor)
    (data : QByteArray) (type : QString) :
    (parseResponse fromJson self data type).m_windowList =
        (if type = "clients" then pulledArray fromJson (some data) self.m_windowList
          else self.m_windowList) ∧
      (parseResponse fromJson self data type).m_workspaces =
        (if type = "workspaces" then pulledArray fromJson (some data) self.m_workspaces
          else self.m_workspaces) ∧
      (parseResponse fromJson self data type).m_monitors =
        (if type = "monitors" then pulledArray fromJson (some data) self.m_monitors
          else self.m_monitors) ∧
      (parseResponse fromJson self data type).m_activeWorkspace =
        (if type = "activeworkspace" then
          pulledObject fromJson (some data) self.m_activeWorkspace
          else self.m_activeWorkspace) ∧
      (parseResponse fromJson self data type).m_eventBuffer = self.m_eventBuffer ∧
      (parseResponse fromJson self data type).m_connected = self.m_connected ∧
      (parseResponse fromJson self data type).replies = self.replies := by
  unfold parseResponse pulledArray pulledObject
  cases hj : fromJson data with
  | none => simp [hj]
  | some doc =>
    have hu := updateFocusedMonitorFrom_frame
    cases doc with
    | empty => simp [hj, QJsonDocument.isArray, QJsonDocument.isObject]
    | array a =>
      by_cases h1 : type = "clients"
      · subst h1; simp [hj, QJsonDocument.isArray, QJsonDocument.toArray, emit]
      · by_cases h2 : type = "workspaces"
        · subst h2; simp [hj, QJsonDocument.isArray, QJsonDocument.toArray, emit]
        · by_cases h3 : type = "monitors"
          · subst h3
            simp [hj, QJsonDocument.isArray, QJsonDocument.toArray, emit, updateFocusedMonitor, hu]
          · simp [hj, QJsonDocument.isArray, QJsonDocument.isObject, h1, h2, h3]
    | object o =>
      by_cases h4 : type = "activeworkspace"
      · subst h4
        simp [hj, QJsonDocument.isArray, QJsonDocument.isObject, QJsonDocument.toObject, emit]
      · simp [hj, QJsonDocument.isArray, QJsonDocument.isObject, h4]

/-- What one `sendRequest` leaves in each snapshot field when the request socket answers with
`outcome`: only the field of the command's own category can change. -/
theorem sendRequest_fields (fromJson : JsonParser) (self : HyprlandMonitor) (command : QString)
    (outcome : Option QByteArray) (rest : List (Option QByteArray))
    (h : self.replies = outcome :: rest) :
    (sendRequest fromJson self command).m_windowList =
        (if command = "clients" then pulledArray fromJson outcome self.m_windowList
          else self.m_windowList) ∧
      (sendRequest fromJson self command).m_workspaces =
        (if command = "workspaces" then pulledArray fromJson outcome self.m_workspaces
          else self.m_workspaces) ∧
      (sendRequest fromJson self command).m_monitors =
        (if command = "monitors" then pulledArray fromJson outcome self.m_monitors
          else self.m_monitors) ∧
      (sendRequest fromJson self command).m_activeWorkspace =
        (if command = "activeworkspace" then
          pulledObject fromJson outcome self.m_activeWorkspace
          else self.m_activeWorkspace) ∧
      (sendRequest fromJson self command).m_eventBuffer = self.m_eventBuffer ∧
      (sendRequest fromJson self command).m_connected = self.m_connected ∧
      (sendRequest fromJson self command).replies = rest := by
  unfold sendRequest
  cases outcome with
  | none => simp [emit, h, pulledArray, pulledObject]
  | some response =>
    simp only [emit, h]
    exact parseResponse_fields fromJson _ response command

end HyprlandMonitor

/-! ## Claims on the pulls -/

/-- C3: after a monitors update with a decoded array, `m_monitors` is that array and
`focusedMonitor` is the first monitor in list order whose focused marker is true, or its value
from before the update when no monitor of the new list is focused. -/
theorem parseResponse_monitors_focusedMonitor (fromJson : JsonParser) (self : HyprlandMonitor)
    (data : QByteArray) (monitors : QJsonArray)
    (h : fromJson data = some (QJsonDocument.array monitors)) :
    (HyprlandMonitor.parseResponse fromJson self data "monitors").m_monitors = monitors ∧
      (∀ mon, monitors.find? isFocused = some mon →
        (HyprlandMonitor.parseResponse fromJson self data "monitors").m_focusedMonitor =
          mon.toObject) ∧
      (monitors.find? isFocused = none →
        (HyprlandMonitor.parseResponse fromJson self data "monitors").m_focusedMonitor =
          self.m_focusedMonitor) := by
  rw [HyprlandMonitor.parseResponse_monitors_array fromJson self data monitors h]
  have hf := HyprlandMonitor.updateFocusedMonitorFrom_focused
    { self with m_monitors := monitors } monitors
  have hm := (HyprlandMonitor.updateFocusedMonitorFrom_frame
    { self with m_monitors := monitors } monitors).2.2.1
  refine ⟨?_, ?_, ?_⟩
  · simpa [HyprlandMonitor.emit, HyprlandMonitor.updateFocusedMonitor] using hm
  · intro mon hmon
    simp only [HyprlandMonitor.emit, HyprlandMonitor.updateFocusedMonitor]
    rw [hf]
    simp [firstFocused, hmon]
  · intro hnone
    simp only [HyprlandMonitor.emit, HyprlandMonitor.updateFocusedMonitor]
    rw [hf]
    simp [firstFocused, hnone]

/-- C3, witness: the update with monitors A (not focused) and B (focused) leaves the B record
in `focusedMonitor`, and a following update in which no monitor is focused leaves it there. -/
theorem parseResponse_monitors_focusedMonitor_witness :
    (HyprlandMonitor.parseResponse sampleParser HyprlandMonitor.init [1]
        "monitors").m_focusedMonitor = (sampleMonitor "B" true).toObject ∧
      (HyprlandMonitor.parseResponse sampleParser
        (HyprlandMonitor.parseResponse sampleParser HyprlandMonitor.init [1] "monitors") [2]
        "monitors").m_focusedMonitor = (sampleMonitor "B" true).toObject :=
  ⟨(parseResponse_monitors_focusedMonitor sampleParser HyprlandMonitor.init [1]
      [sampleMonitor "A" false, sampleMonitor "B" true] rfl).2.1 (sampleMonitor "B" true)
      (by decide),
    ((parseResponse_monitors_focusedMonitor sampleParser
      (HyprlandMonitor.parseResponse sampleParser HyprlandMonitor.init [1] "monitors") [2]
      [sampleMonitor "A" false, sampleMonitor "B" false] rfl).2.2 (by decide)).trans
      (by decide)⟩

/-- C4: whatever the four pulls of one `refresh()` produce, each of `windows`, `workspaces`,
`monitors` and `activeWorkspace` ends up as the decoded payload of its own pull when that pull
produced a document of the expected shape, and as its prior value otherwise; the outcomes of
the other three pulls play no part. -/
theorem refresh_fields_independent (fromJson : JsonParser) (self : HyprlandMonitor)
    (clients workspaces monitors activeworkspace : Option QByteArray)
    (rest : List (Option QByteArray)) :
    (HyprlandMonitor.refresh fromJson
        { self with replies := clients :: workspaces :: monitors :: activeworkspace :: rest }
      ).m_windowList = pulledArray fromJson clients self.m_windowList ∧
    (HyprlandMonitor.refresh fromJson
        { self with replies := clients :: workspaces :: monitors :: activeworkspace :: rest }
      ).m_workspaces = pulledArray fromJson workspaces self.m_workspaces ∧
    (HyprlandMonitor.refresh fromJson
        { self with replies := clients :: workspaces :: monitors :: activeworkspace :: rest }
      ).m_monitors = pulledArray fromJson monitors self.m_monitors ∧
    (HyprlandMonitor.refresh fromJson
        { self with replies := clients :: workspaces :: monitors :: activeworkspace :: rest }
      ).m_activeWorkspace = pulledObject fromJson activeworkspace self.m_activeWorkspace := by
  unfold HyprlandMonitor.refresh HyprlandMonitor.requestData
  simp only
  obtain ⟨a1, b1, c1, d1, _, _, r1⟩ := HyprlandMonitor.sendRequest_fields fromJson
    { self with replies := clients :: workspaces :: monitors :: activeworkspace :: rest }
    "clients" clients _ rfl
  obtain ⟨a2, b2, c2, d2, _, _, r2⟩ := HyprlandMonitor.sendRequest_fields fromJson _
    "workspaces" workspaces _ r1
  obtain ⟨a3, b3, c3, d3, _, _, r3⟩ := HyprlandMonitor.sendRequest_fields fromJson _
    "monitors" monitors _ r2
  obtain ⟨a4, b4, c4, d4, _, _, _⟩ := HyprlandMonitor.sendRequest_fields fromJson _
    "activeworkspace" activeworkspace _ r3
  refine ⟨?_, ?_, ?_, ?_⟩
  · rw [a4, a3, a2, a1]; simp
  · rw [b4, b3, b2, b1]; simp
  · rw [c4, c3, c2, c1]; simp
  · rw [d4, d3, d2, d1]; simp

/-- C5: a response that does not parse, or that parses to the wrong shape for the request
type, leaves the object exactly as it was: every snapshot field, `focusedMonitor` included,
keeps its value and the log gains no entry, so no change notification is emitted. -/
theorem parseResponse_rejects_unchanged (fromJson : JsonParser) (self : HyprlandMonitor)
    (data : QByteArray) (type : QString)
    (h : fromJson data = none ∨ ∃ doc, fromJson data = some doc ∧
      ((type = "clients" ∨ type = "workspaces" ∨ type = "monitors") ∧ doc.isArray = false ∨
        type = "activeworkspace" ∧ doc.isObject = false)) :
    HyprlandMonitor.parseResponse fromJson self data type = self := by
  rcases h with h | ⟨doc, hdoc, hshape⟩
  · exact HyprlandMonitor.parseResponse_of_error fromJson self data type h
  · exact HyprlandMonitor.parseResponse_of_wrong_shape fromJson self data type doc hdoc hshape

/-- C5, witness: an object in answer to `clients` changes nothing. -/
theorem parseResponse_rejects_unchanged_witness :
    HyprlandMonitor.parseResponse sampleParser HyprlandMonitor.init [3] "clients" =
      HyprlandMonitor.init :=
  parseResponse_rejects_unchanged sampleParser HyprlandMonitor.init [3] "clients"
    (Or.inr ⟨QJsonDocument.object [("id", QJsonValue.double 7)], rfl,
      Or.inl ⟨Or.inl rfl, rfl⟩⟩)

/-! ## Text lemmas -/

namespace QString

/-- `split` never returns an empty list. -/
theorem splitGo_length_pos (sep : List Char) (s : List Char) (skip : Nat) (cur : List Char) :
    0 < (splitGo sep s skip cur).length := by
  induction s generalizing skip cur with
  | nil => simp [splitGo]
  | cons c cs ih =>
    cases skip with
    | zero =>
      unfold splitGo
      split
      · simp
      · exact ih 0 (c :: cur)
    | succ n =>
      unfold splitGo
      exact ih n cur

/-- A text in which the separator does not occur is its own single part. -/
theorem splitGo_of_absent (sep : List Char) (s : List Char) (cur : List Char)
    (h : ¬ sep <:+: s) : splitGo sep s 0 cur = [String.mk (cur.reverse ++ s)] := by
  induction s generalizing cur with
  | nil => simp [splitGo]
  | cons c cs ih =>
    unfold splitGo
    have hp : sep.isPrefixOf (c :: cs) = false := by
      by_contra hn
      simp only [Bool.not_eq_false] at hn
      have hpre : sep <+: c :: cs := List.isPrefixOf_iff_prefix.mp hn
      exact h hpre.isInfix
    have hcs : ¬ sep <:+: cs := fun hi => h (hi.trans (List.suffix_cons c cs).isInfix)
    simp [hp, ih (c :: cur) hcs]

theorem split_of_absent (s sep : QString) (h : ¬ sep.data <:+: s.data) :
    split s sep = [s] := by
  unfold split
  rw [splitGo_of_absent sep.data s.data [] h]
  simp

end QString

/-! ## Lemmas on the log -/

theorem rawEvents_append (l₁ l₂ : List Effect) :
    rawEvents (l₁ ++ l₂) = rawEvents l₁ ++ rawEvents l₂ := by
  simp [rawEvents]

theorem requestsIssued_append (l₁ l₂ : List Effect) :
    requestsIssued (l₁ ++ l₂) = requestsIssued l₁ ++ requestsIssued l₂ := by
  simp [requestsIssued]

theorem timerStarts_append (l₁ l₂ : List Effect) :
    timerStarts (l₁ ++ l₂) = timerStarts l₁ + timerStarts l₂ := by
  simp [timerStarts]

theorem rawEvents_of_quiet (l : List Effect) (h : ∀ e ∈ l, e.isQuiet = true) :
    rawEvents l = [] := by
  unfold rawEvents
  rw [List.filter_eq_nil_iff]
  intro e he
  have := h e he
  cases e <;> simp_all [Effect.isQuiet]

theorem requestsIssued_of_quiet (l : List Effect) (h : ∀ e ∈ l, e.isQuiet = true) :
    requestsIssued l = [] := by
  unfold requestsIssued
  rw [List.filterMap_eq_nil_iff]
  intro e he
  have := h e he
  cases e <;> simp_all [Effect.isQuiet]

theorem timerStarts_of_quiet (l : List Effect) (h : ∀ e ∈ l, e.isQuiet = true) :
    timerStarts l = 0 := by
  unfold timerStarts
  rw [List.length_eq_zero, List.filter_eq_nil_iff]
  intro e he
  have := h e he
  cases e <;> simp_all [Effect.isQuiet]

namespace HyprlandMonitor

/-- The scan of `updateFocusedMonitor` adds quiet effects only. -/
theorem updateFocusedMonitorFrom_log (self : HyprlandMonitor) (l : List QJsonValue) :
    ∃ added, (updateFocusedMonitorFrom self l).log = self.log ++ added ∧
      ∀ e ∈ added, e.isQuiet = true := by
  induction l with
  | nil => exact ⟨[], by simp [updateFocusedMonitorFrom]⟩
  | cons v rest ih =>
    unfold updateFocusedMonitorFrom
    simp only
    split
    · exact ⟨[Effect.focusedMonitorChanged], by simp [emit, Effect.isQuiet]⟩
    · exact ih

/-- `parseResponse` adds quiet effects only. -/
theorem parseResponse_log (fromJson : JsonParser) (self : HyprlandMonitor) (data : QByteArray)
    (type : QString) :
    ∃ added, (parseResponse fromJson self data type).log = self.log ++ added ∧
      ∀ e ∈ added, e.isQuiet = true := by
  unfold parseResponse
  cases fromJson data with
  | none => exact ⟨[], by simp⟩
  | some doc =>
    simp only
    split
    · exact ⟨[Effect.windowListChanged], by simp [emit, Effect.isQuiet]⟩
    · split
      · exact ⟨[Effect.workspacesChanged], by simp [emit, Effect.isQuiet]⟩
      · split
        · obtain ⟨added, hlog, hq⟩ := updateFocusedMonitorFrom_log
            { self with m_monitors := doc.toArray } doc.toArray
          refine ⟨added ++ [Effect.monitorsChanged], ?_, ?_⟩
          · simp only [emit, updateFocusedMonitor]
            rw [hlog]
            simp
          · intro e he
            rcases List.mem_append.mp he with h | h
            · exact hq e h
            · simp only [List.mem_singleton] at h
              subst h
              rfl
        · split
          · exact ⟨[Effect.activeWorkspaceChanged], by simp [emit, Effect.isQuiet]⟩
          · exact ⟨[], by simp⟩

/-- `sendRequest` logs its own call, then quiet effects only. -/
theorem sendRequest_log (fromJson : JsonParser) (self : HyprlandMonitor) (command : QString) :
    ∃ added, (sendRequest fromJson self command).log =
        self.log ++ Effect.sendRequest command :: added ∧
      ∀ e ∈ added, e.isQuiet = true := by
  unfold sendRequest
  simp only [emit]
  split
  · exact ⟨[], by simp⟩
  · exact ⟨[], by simp⟩
  · rename_i response rest hrep
    obtain ⟨added, hlog, hq⟩ := parseResponse_log fromJson
      { self with replies := rest,
                  log := self.log ++ [Effect.sendRequest command] ++
                    [Effect.write ("j/" ++ command)] } response command
    refine ⟨Effect.write ("j/" ++ command) :: added, ?_, ?_⟩
    · rw [hlog]
      simp
    · intro e he
      rcases List.mem_cons.mp he with h | h
      · subst h
        rfl
      · exact hq e h

/-- What `requestData` adds to the log: the four pulls in order and no raw event, no timer
start. -/
theorem requestData_log (fromJson : JsonParser) (self : HyprlandMonitor) :
    rawEvents (requestData fromJson self).log = rawEvents self.log ∧
      requestsIssued (requestData fromJson self).log =
        requestsIssued self.log ++ refreshCycle ∧
      timerStarts (requestData fromJson self).log = timerStarts self.log := by
  unfold requestData
  simp only
  obtain ⟨a1, h1, q1⟩ := sendRequest_log fromJson self "clients"
  obtain ⟨a2, h2, q2⟩ := sendRequest_log fromJson (sendRequest fromJson self "clients")
    "workspaces"
  obtain ⟨a3, h3, q3⟩ := sendRequest_log fromJson
    (sendRequest fromJson (sendRequest fromJson self "clients") "workspaces") "monitors"
  obtain ⟨a4, h4, q4⟩ := sendRequest_log fromJson
    (sendRequest fromJson (sendRequest fromJson (sendRequest fromJson self "clients")
      "workspaces") "monitors") "activeworkspace"
  rw [h4, h3, h2, h1]
  refine ⟨?_, ?_, ?_⟩
  · simp only [rawEvents_append]
    have c : ∀ (command : QString) (l : List Effect), (∀ e ∈ l, e.isQuiet = true) →
        rawEvents (Effect.sendRequest command :: l) = [] := by
      intro command l hl
      have := rawEvents_of_quiet l hl
      simp only [rawEvents] at this ⊢
      simpa [List.filter_cons] using this
    rw [c _ _ q1, c _ _ q2, c _ _ q3, c _ _ q4]
    simp
  · simp only [requestsIssued_append, List.append_assoc]
    have c : ∀ (command : QString) (l : List Effect), (∀ e ∈ l, e.isQuiet = true) →
        requestsIssued (Effect.sendRequest command :: l) = [command] := by
      intro command l hl
      have := requestsIssued_of_quiet l hl
      simp only [requestsIssued] at this ⊢
      simp [List.filterMap_cons, this]
    rw [c _ _ q1, c _ _ q2, c _ _ q3, c _ _ q4]
    rfl
  · simp only [timerStarts_append]
    have c : ∀ (command : QString) (l : List Effect), (∀ e ∈ l, e.isQuiet = true) →
        timerStarts (Effect.sendRequest command :: l) = 0 := by
      intro command l hl
      have := timerStarts_of_quiet l hl
      simp only [timerStarts] at this ⊢
      simpa [List.filter_cons] using this
    rw [c _ _ q1, c _ _ q2, c _ _ q3, c _ _ q4]
    simp

/-- `requestData` leaves the event buffer alone. -/
theorem requestData_eventBuffer (fromJson : JsonParser) (self : HyprlandMonitor) :
    (requestData fromJson self).m_eventBuffer = self.m_eventBuffer := by
  have key : ∀ (s : HyprlandMonitor) (command : QString),
      (sendRequest fromJson s command).m_eventBuffer = s.m_eventBuffer := by
    intro s command
    cases hr : s.replies with
    | nil => simp [sendRequest, emit, hr]
    | cons outcome rest => exact (sendRequest_fields fromJson s command outcome rest hr).2.2.2.2.1
  unfold requestData
  simp only [key]

end HyprlandMonitor

namespace HyprlandMonitor

theorem split_length_pos (eventLine : QString) :
    ¬ (QString.split eventLine ">>").length < 1 := by
  have := QString.splitGo_length_pos (">>" : String).data eventLine.data 0 []
  unfold QString.split
  omega

/-- `processEvent` ends by publishing the raw event of the line: the log is the log of the
state after the refresh or timer start the name asks for, followed by that event. -/
theorem processEvent_log (fromJson : JsonParser) (self : HyprlandMonitor)
    (eventLine : QString) :
    (processEvent fromJson self eventLine).log =
      (if eventName eventLine ∈ immediateNames then (requestData fromJson self).log
        else if eventName eventLine ∈ debouncedNames then
          self.log ++ [Effect.debounceTimerStart]
        else self.log) ++ [rawEvent eventLine] := by
  unfold processEvent
  simp only [split_length_pos, if_false]
  have hi : (eventName eventLine ∈ immediateNames) ↔
      ((QString.split eventLine ">>").getD 0 "" = "openwindow" ∨
        (QString.split eventLine ">>").getD 0 "" = "closewindow" ∨
        (QString.split eventLine ">>").getD 0 "" = "movewindow" ∨
        (QString.split eventLine ">>").getD 0 "" = "movewindowv2") := by
    simp [eventName, immediateNames]
  have hd : (eventName eventLine ∈ debouncedNames) ↔
      ((QString.split eventLine ">>").getD 0 "" = "workspace" ∨
        (QString.split eventLine ">>").getD 0 "" = "focusedmon" ∨
        (QString.split eventLine ">>").getD 0 "" = "activewindow" ∨
        (QString.split eventLine ">>").getD 0 "" = "changefloatingmode") := by
    simp [eventName, debouncedNames]
  by_cases h1 : eventName eventLine ∈ immediateNames
  · rw [if_pos h1, if_pos (hi.mp h1)]
    rfl
  · rw [if_neg h1, if_neg (fun h => h1 (hi.mpr h))]
    by_cases h2 : eventName eventLine ∈ debouncedNames
    · rw [if_pos h2, if_pos (hd.mp h2)]
      rfl
    · rw [if_neg h2, if_neg (fun h => h2 (hd.mpr h))]
      rfl

/-- `processEvent` leaves the event buffer alone. -/
theorem processEvent_eventBuffer (fromJson : JsonParser) (self : HyprlandMonitor)
    (eventLine : QString) :
    (processEvent fromJson self eventLine).m_eventBuffer = self.m_eventBuffer := by
  unfold processEvent
  simp only [split_length_pos, if_false, emit]
  split
  · exact requestData_eventBuffer fromJson self
  · split <;> rfl

theorem rawEvents_rawEvent (eventLine : QString) : rawEvents [rawEvent eventLine] =
    [rawEvent eventLine] := by
  simp [rawEvents, rawEvent]

theorem requestsIssued_rawEvent (eventLine : QString) :
    requestsIssued [rawEvent eventLine] = [] := by
  simp [requestsIssued, rawEvent]

theorem timerStarts_rawEvent (eventLine : QString) : timerStarts [rawEvent eventLine] = 0 := by
  simp [timerStarts, rawEvent]

/-- Each event line adds exactly one raw event, its own. -/
theorem processEvent_rawEvents (fromJson : JsonParser) (self : HyprlandMonitor)
    (eventLine : QString) :
    rawEvents (processEvent fromJson self eventLine).log =
      rawEvents self.log ++ [rawEvent eventLine] := by
  rw [processEvent_log, rawEvents_append, rawEvents_rawEvent]
  congr 1
  split
  · exact (requestData_log fromJson self).1
  · split
    · simp [rawEvents_append, rawEvents]
    · rfl

/-- The pulls an event line adds: one refresh cycle for an immediate name, none otherwise. -/
theorem processEvent_requestsIssued (fromJson : JsonParser) (self : HyprlandMonitor)
    (eventLine : QString) :
    requestsIssued (processEvent fromJson self eventLine).log =
      requestsIssued self.log ++
        (if eventName eventLine ∈ immediateNames then refreshCycle else []) := by
  rw [processEvent_log, requestsIssued_append, requestsIssued_rawEvent, List.append_nil]
  split
  · exact (requestData_log fromJson self).2.1
  · split
    · simp [requestsIssued_append, requestsIssued]
    · simp

/-- The timer starts an event line adds: one for a debounced name, none otherwise. -/
theorem processEvent_timerStarts (fromJson : JsonParser) (self : HyprlandMonitor)
    (eventLine : QString) :
    timerStarts (processEvent fromJson self eventLine).log =
      timerStarts self.log +
        (if eventName eventLine ∈ debouncedNames then 1 else 0) := by
  rw [processEvent_log, timerStarts_append, timerStarts_rawEvent, Nat.add_zero]
  by_cases h1 : eventName eventLine ∈ immediateNames
  · have h2 : eventName eventLine ∉ debouncedNames := by
      intro h2
      simp only [immediateNames, debouncedNames, List.mem_cons, List.mem_singleton,
        List.mem_nil_iff, or_false] at h1 h2
      rcases h1 with h | h | h | h <;> rw [h] at h2 <;> revert h2 <;> decide
    rw [if_pos h1, if_neg h2, (requestData_log fromJson self).2.2]
    rfl
  · rw [if_neg h1]
    split
    · simp [timerStarts_append, timerStarts]
    · rfl

end HyprlandMonitor

/-! ## Lemmas on byte streams -/

/-- A buffer that contains a newline splits at `indexOf` into a newline-free line, the
newline, and the rest. -/
theorem take_indexOf_append_drop (buf : QByteArray) (h : (10 : UInt8) ∈ buf) :
    buf.take (buf.indexOf (10 : UInt8)) ++ 10 :: buf.drop (buf.indexOf (10 : UInt8) + 1) = buf ∧
      (10 : UInt8) ∉ buf.take (buf.indexOf (10 : UInt8)) := by
  induction buf with
  | nil => simp at h
  | cons b rest ih =>
    by_cases hb : b = 10
    · subst hb
      simp [List.indexOf_cons]
    · have hrest : (10 : UInt8) ∈ rest := by
        rcases List.mem_cons.mp h with h | h
        · exact absurd h.symm hb
        · exact h
      obtain ⟨h1, h2⟩ := ih hrest
      have hne : ¬ (10 : UInt8) = b := fun e => hb e.symm
      have hbeq : (b == (10 : UInt8)) = false := by simpa using hb
      simp only [List.indexOf_cons, hbeq, cond_false, List.take_succ_cons,
        List.drop_succ_cons, List.cons_append, List.mem_cons, hne, false_or]
      exact ⟨by rw [h1], h2⟩

theorem completeLinesGo_of_not_mem (cur s : QByteArray) (h : (10 : UInt8) ∉ s) :
    completeLinesGo cur s = [] := by
  induction s generalizing cur with
  | nil => rfl
  | cons b rest ih =>
    simp only [List.mem_cons, not_or] at h
    have hb : ¬ b = 10 := fun e => h.1 e.symm
    simp [completeLinesGo, hb, ih _ h.2]

theorem trailingGo_of_not_mem (cur s : QByteArray) (h : (10 : UInt8) ∉ s) :
    trailingGo cur s = cur ++ s := by
  induction s generalizing cur with
  | nil => simp [trailingGo]
  | cons b rest ih =>
    simp only [List.mem_cons, not_or] at h
    have hb : ¬ b = 10 := fun e => h.1 e.symm
    simp [trailingGo, hb, ih _ h.2]

theorem completeLinesGo_append (cur s t : QByteArray) :
    completeLinesGo cur (s ++ t) = completeLinesGo cur s ++ completeLinesGo (trailingGo cur s) t := by
  induction s generalizing cur with
  | nil => simp [completeLinesGo, trailingGo]
  | cons b rest ih =>
    by_cases hb : b = 10
    · simp [completeLinesGo, trailingGo, hb, ih]
    · simp [completeLinesGo, trailingGo, hb, ih]

theorem trailingGo_append (cur s t : QByteArray) :
    trailingGo cur (s ++ t) = trailingGo (trailingGo cur s) t := by
  induction s generalizing cur with
  | nil => simp [trailingGo]
  | cons b rest ih =>
    by_cases hb : b = 10
    · simp [trailingGo, hb, ih]
    · simp [trailingGo, hb, ih]

theorem trailingGo_not_mem (cur s : QByteArray) (h : (10 : UInt8) ∉ cur) :
    (10 : UInt8) ∉ trailingGo cur s := by
  induction s generalizing cur with
  | nil => simpa [trailingGo] using h
  | cons b rest ih =>
    by_cases hb : b = 10
    · simp only [trailingGo, hb, if_true]
      exact ih [] (by simp)
    · simp only [trailingGo, hb, if_false]
      apply ih
      simp only [List.mem_append, List.mem_singleton, not_or]
      exact ⟨h, fun e => hb e.symm⟩

/-- The bytes after the last newline contain no newline. -/
theorem trailing_not_mem (s : QByteArray) : (10 : UInt8) ∉ trailing s :=
  trailingGo_not_mem [] s (by simp)

/-- A line already read and free of newlines can be put back in front of the stream. -/
theorem completeLinesGo_eq (cur s : QByteArray) (h : (10 : UInt8) ∉ cur) :
    completeLinesGo cur s = completeLines (cur ++ s) := by
  unfold completeLines
  rw [completeLinesGo_append, completeLinesGo_of_not_mem [] cur h,
    trailingGo_of_not_mem [] cur h]
  simp

theorem trailingGo_eq (cur s : QByteArray) (h : (10 : UInt8) ∉ cur) :
    trailingGo cur s = trailing (cur ++ s) := by
  unfold trailing
  rw [trailingGo_append, trailingGo_of_not_mem [] cur h]
  simp

theorem completeLines_split (pre post : QByteArray) (h : (10 : UInt8) ∉ pre) :
    completeLines (pre ++ 10 :: post) = pre :: completeLines post := by
  unfold completeLines
  rw [completeLinesGo_append, completeLinesGo_of_not_mem [] pre h,
    trailingGo_of_not_mem [] pre h]
  simp [completeLinesGo]

theorem trailing_split (pre post : QByteArray) (h : (10 : UInt8) ∉ pre) :
    trailing (pre ++ 10 :: post) = trailing post := by
  unfold trailing
  rw [trailingGo_append, trailingGo_of_not_mem [] pre h]
  simp [trailingGo]

theorem completeLines_append (s t : QByteArray) :
    completeLines (s ++ t) = completeLines s ++ completeLines (trailing s ++ t) := by
  rw [← completeLinesGo_eq (trailing s) t (trailing_not_mem s)]
  exact completeLinesGo_append [] s t

theorem trailing_append (s t : QByteArray) :
    trailing (s ++ t) = trailing (trailing s ++ t) := by
  rw [← trailingGo_eq (trailing s) t (trailing_not_mem s)]
  exact trailingGo_append [] s t

theorem eventLines_append (fromUtf8 : Utf8Decoder) (s t : QByteArray) :
    eventLines fromUtf8 (s ++ t) =
      eventLines fromUtf8 s ++ eventLines fromUtf8 (trailing s ++ t) := by
  unfold eventLines
  rw [completeLines_append, List.map_append, List.filter_append]

/-! ## The event-socket read handler -/

namespace HyprlandMonitor

/-- One turn of the loop of the read handler on a buffer that holds a newline. -/
theorem eventLoop_succ (fromJson : JsonParser) (fromUtf8 : Utf8Decoder) (fuel : Nat)
    (self : HyprlandMonitor) (h : (10 : UInt8) ∈ self.m_eventBuffer) :
    eventLoop fromJson fromUtf8 (fuel + 1) self =
      eventLoop fromJson fromUtf8 fuel
        (if ¬ QString.isEmpty (QString.trimmed (fromUtf8
            (self.m_eventBuffer.take (self.m_eventBuffer.indexOf (10 : UInt8))))) then
          processEvent fromJson
            { self with m_eventBuffer :=
                (self.m_eventBuffer.drop (self.m_eventBuffer.indexOf (10 : UInt8) + 1)) }
            (QString.trimmed (fromUtf8
              (self.m_eventBuffer.take (self.m_eventBuffer.indexOf (10 : UInt8)))))
        else
          { self with m_eventBuffer :=
              (self.m_eventBuffer.drop (self.m_eventBuffer.indexOf (10 : UInt8) + 1)) }) := by
  conv_lhs => unfold eventLoop
  simp only [h, if_true]

/-- The loop of the read handler stops at once on a buffer without a newline. -/
theorem eventLoop_of_not_mem (fromJson : JsonParser) (fromUtf8 : Utf8Decoder) (fuel : Nat)
    (self : HyprlandMonitor) (h : (10 : UInt8) ∉ self.m_eventBuffer) :
    eventLoop fromJson fromUtf8 fuel self = self := by
  cases fuel with
  | zero => rfl
  | succ n =>
    unfold eventLoop
    simp only [h, if_false]

/-- The loop of the read handler, given fuel for every byte of the buffer: it stops with the
bytes after the last newline in the buffer, having published the raw event of every event
line of the buffer, in order. -/
theorem eventLoop_spec (fromJson : JsonParser) (fromUtf8 : Utf8Decoder) (fuel : Nat)
    (self : HyprlandMonitor) (hfuel : self.m_eventBuffer.length ≤ fuel) :
    (eventLoop fromJson fromUtf8 fuel self).m_eventBuffer = trailing self.m_eventBuffer ∧
      rawEvents (eventLoop fromJson fromUtf8 fuel self).log =
        rawEvents self.log ++ (eventLines fromUtf8 self.m_eventBuffer).map rawEvent := by
  induction fuel generalizing self with
  | zero =>
    have hnil : self.m_eventBuffer = [] := List.length_eq_zero.mp (Nat.le_zero.mp hfuel)
    have hno : (10 : UInt8) ∉ self.m_eventBuffer := by rw [hnil]; simp
    rw [eventLoop_of_not_mem fromJson fromUtf8 0 self hno, hnil]
    exact ⟨rfl, by simp [eventLines, completeLines, completeLinesGo]⟩
  | succ n ih =>
    by_cases hmem : (10 : UInt8) ∈ self.m_eventBuffer
    · obtain ⟨hsplit, hpre⟩ := take_indexOf_append_drop self.m_eventBuffer hmem
      rw [eventLoop_succ fromJson fromUtf8 n self hmem]
      generalize hi : self.m_eventBuffer.indexOf (10 : UInt8) = i at hsplit hpre ⊢
      generalize hline : self.m_eventBuffer.take i = line at hsplit hpre ⊢
      generalize hpost : self.m_eventBuffer.drop (i + 1) = post at hsplit ⊢
      have hlen : post.length ≤ n := by
        have := congrArg List.length hsplit
        simp only [List.length_append, List.length_cons] at this
        omega
      have hlines : completeLines self.m_eventBuffer = line :: completeLines post := by
        rw [← hsplit]
        exact completeLines_split _ _ hpre
      have htrail : trailing self.m_eventBuffer = trailing post := by
        rw [← hsplit]
        exact trailing_split _ _ hpre
      by_cases hempty : QString.isEmpty (QString.trimmed (fromUtf8 line)) = true
      · rw [if_neg (by simpa using hempty)]
        obtain ⟨hb, hl⟩ := ih { self with m_eventBuffer := post } hlen
        refine ⟨by rw [hb, htrail], ?_⟩
        rw [hl]
        simp [eventLines, hlines, hempty]
      · rw [if_pos hempty]
        have hbuf := processEvent_eventBuffer fromJson { self with m_eventBuffer := post }
          (QString.trimmed (fromUtf8 line))
        obtain ⟨hb, hl⟩ := ih (processEvent fromJson { self with m_eventBuffer := post }
          (QString.trimmed (fromUtf8 line))) (by rw [hbuf]; exact hlen)
        rw [hbuf] at hb hl
        refine ⟨by rw [hb, htrail], ?_⟩
        rw [hl, processEvent_rawEvents]
        simp [eventLines, hlines, hempty]
    · rw [eventLoop_of_not_mem fromJson fromUtf8 (n + 1) self hmem]
      refine ⟨?_, ?_⟩
      · simp [trailing, trailingGo_of_not_mem [] _ hmem]
      · simp [eventLines, completeLines, completeLinesGo_of_not_mem [] _ hmem]

/-- One read: the buffer becomes the bytes after the last newline of (buffer followed by the
read), and the raw event of every event line of that concatenation is published. -/
theorem onEventSocketReadyRead_spec (fromJson : JsonParser) (fromUtf8 : Utf8Decoder)
    (self : HyprlandMonitor) (read : QByteArray) :
    (onEventSocketReadyRead fromJson fromUtf8 self read).m_eventBuffer =
        trailing (self.m_eventBuffer ++ read) ∧
      rawEvents (onEventSocketReadyRead fromJson fromUtf8 self read).log =
        rawEvents self.log ++ (eventLines fromUtf8 (self.m_eventBuffer ++ read)).map rawEvent := by
  unfold onEventSocketReadyRead
  exact eventLoop_spec fromJson fromUtf8 _ _ (le_refl _)

end HyprlandMonitor

/-- A sequence of reads, fed to a handler whose buffer holds the unfinished line of the stream
`before` and whose log holds the raw events of `before` after those of `base`: the buffer ends
as the unfinished line of the whole stream, and the log holds the raw events of the whole
stream after those of `base`. -/
theorem feed_spec (fromJson : JsonParser) (fromUtf8 : Utf8Decoder) (reads : List QByteArray)
    (self : HyprlandMonitor) (before : QByteArray) (base : List Effect)
    (hbuf : self.m_eventBuffer = trailing before)
    (hlog : rawEvents self.log = base ++ (eventLines fromUtf8 before).map rawEvent) :
    (feed fromJson fromUtf8 self reads).m_eventBuffer = trailing (before ++ reads.flatten) ∧
      rawEvents (feed fromJson fromUtf8 self reads).log =
        base ++ (eventLines fromUtf8 (before ++ reads.flatten)).map rawEvent := by
  induction reads generalizing self before with
  | nil => simp [feed, hbuf, hlog]
  | cons r rest ih =>
    obtain ⟨hb, hl⟩ := HyprlandMonitor.onEventSocketReadyRead_spec fromJson fromUtf8 self r
    have hb' : (HyprlandMonitor.onEventSocketReadyRead fromJson fromUtf8 self r).m_eventBuffer =
        trailing (before ++ r) := by
      rw [hb, hbuf, ← trailing_append]
    have hl' : rawEvents (HyprlandMonitor.onEventSocketReadyRead fromJson fromUtf8 self r).log =
        base ++ (eventLines fromUtf8 (before ++ r)).map rawEvent := by
      rw [hl, hlog, hbuf, eventLines_append fromUtf8 before r]
      simp [List.append_assoc]
    obtain ⟨ihb, ihl⟩ := ih (HyprlandMonitor.onEventSocketReadyRead fromJson fromUtf8 self r)
      (before ++ r) hb' hl'
    have hfeed : feed fromJson fromUtf8 self (r :: rest) =
        feed fromJson fromUtf8 (HyprlandMonitor.onEventSocketReadyRead fromJson fromUtf8 self r)
          rest := rfl
    rw [hfeed, ihb, ihl]
    simp [List.append_assoc]

namespace HyprlandMonitor

/-- An event line with an immediate name: the refresh cycle runs first, the raw event is
published after it. -/
theorem processEvent_of_immediate (fromJson : JsonParser) (self : HyprlandMonitor)
    (eventLine : QString) (h : eventName eventLine ∈ immediateNames) :
    processEvent fromJson self eventLine =
      (requestData fromJson self).emit (rawEvent eventLine) := by
  have hi : (QString.split eventLine ">>").getD 0 "" = "openwindow" ∨
      (QString.split eventLine ">>").getD 0 "" = "closewindow" ∨
      (QString.split eventLine ">>").getD 0 "" = "movewindow" ∨
      (QString.split eventLine ">>").getD 0 "" = "movewindowv2" := by
    simpa [eventName, immediateNames] using h
  unfold processEvent
  simp only [split_length_pos, if_false]
  rw [if_pos hi]
  rfl

/-- The object `processEvent` builds: `name` is assigned first, `data` second, and the members
stand in key order. -/
theorem eventObj_eq (name data : QJsonValue) :
    QJsonObject.insert (QJsonObject.insert [] "name" name) "data" data =
      [("data", data), ("name", name)] := by
  show QJsonObject.insert [("name", name)] "data" data = _
  unfold QJsonObject.insert
  rw [if_neg (by decide), if_pos (by decide)]

end HyprlandMonitor

/-! ## Claims on the event stream -/

/-- C6: starting from an empty event buffer, the raw events published while the reads are fed
one after another to the read handler are, in order, one event for each event line of the whole
stream (its newline-terminated lines, decoded, trimmed, the empty ones dropped), whatever the
name; the bytes after the last newline stay in the buffer and give no event; and any other way
of cutting the same stream into reads publishes the same raw events. -/
theorem feed_rawEvents (fromJson : JsonParser) (fromUtf8 : Utf8Decoder)
    (self : HyprlandMonitor) (reads : List QByteArray) (h : self.m_eventBuffer = []) :
    rawEvents (feed fromJson fromUtf8 self reads).log =
        rawEvents self.log ++ (eventLines fromUtf8 reads.flatten).map rawEvent ∧
      (feed fromJson fromUtf8 self reads).m_eventBuffer = trailing reads.flatten ∧
      ∀ cut : List QByteArray, cut.flatten = reads.flatten →
        rawEvents (feed fromJson fromUtf8 self cut).log =
          rawEvents (feed fromJson fromUtf8 self reads).log := by
  have key : ∀ rs : List QByteArray,
      (feed fromJson fromUtf8 self rs).m_eventBuffer = trailing rs.flatten ∧
        rawEvents (feed fromJson fromUtf8 self rs).log =
          rawEvents self.log ++ (eventLines fromUtf8 rs.flatten).map rawEvent := by
    intro rs
    have := feed_spec fromJson fromUtf8 rs self [] (rawEvents self.log)
      (by rw [h]; rfl) (by simp [eventLines, completeLines, completeLinesGo])
    simpa using this
  refine ⟨(key reads).2, (key reads).1, ?_⟩
  intro cut hcut
  rw [(key cut).2, (key reads).2, hcut]

/-- C6, witness: the stream `a>>1`, newline, spaces, newline, `b`, newline, `c`, cut after
its second byte, publishes the events of the lines `a>>1` and `b`, and keeps `c` buffered. -/
theorem feed_rawEvents_witness :
    rawEvents (feed sampleParser sampleDecoder HyprlandMonitor.init
        [asciiBytes "a>", asciiBytes ">1\n  \nb\nc"]).log =
      [rawEvent "a>>1", rawEvent "b"] ∧
    (feed sampleParser sampleDecoder HyprlandMonitor.init
        [asciiBytes "a>", asciiBytes ">1\n  \nb\nc"]).m_eventBuffer = asciiBytes "c" :=
  ⟨((feed_rawEvents sampleParser sampleDecoder HyprlandMonitor.init
      [asciiBytes "a>", asciiBytes ">1\n  \nb\nc"] rfl).1).trans (by decide),
    ((feed_rawEvents sampleParser sampleDecoder HyprlandMonitor.init
      [asciiBytes "a>", asciiBytes ">1\n  \nb\nc"] rfl).2.1).trans (by decide)⟩

/-- C7, at the failing input: for the line `a>>b>>c` the event published carries the data `b`,
the part between the first and the second separator, not `b>>c`. -/
theorem processEvent_data_stops_at_second_separator :
    (HyprlandMonitor.processEvent sampleParser HyprlandMonitor.init "a>>b>>c").log =
        [Effect.hyprlandEvent "a"
          [("data", QJsonValue.string "b"), ("name", QJsonValue.string "a")]] ∧
      (HyprlandMonitor.processEvent sampleParser HyprlandMonitor.init "a>>b>>c").log ≠
        [Effect.hyprlandEvent "a"
          [("data", QJsonValue.string "b>>c"), ("name", QJsonValue.string "a")]] := by
  decide

/-- C8: for an event line in which the separator does not occur, `processEvent` publishes
exactly one raw event, last in the log, whose name is the whole line and whose data is the
empty string. -/
theorem processEvent_without_separator (fromJson : JsonParser) (self : HyprlandMonitor)
    (eventLine : QString) (h : ¬ (">>" : String).data <:+: eventLine.data) :
    rawEvents (HyprlandMonitor.processEvent fromJson self eventLine).log =
        rawEvents self.log ++
          [Effect.hyprlandEvent eventLine
            [("data", QJsonValue.string ""), ("name", QJsonValue.string eventLine)]] ∧
      (HyprlandMonitor.processEvent fromJson self eventLine).log.getLast? =
        some (Effect.hyprlandEvent eventLine
          [("data", QJsonValue.string ""), ("name", QJsonValue.string eventLine)]) := by
  have hraw : rawEvent eventLine = Effect.hyprlandEvent eventLine
      [("data", QJsonValue.string ""), ("name", QJsonValue.string eventLine)] := by
    unfold rawEvent
    rw [QString.split_of_absent eventLine ">>" h]
    simp only [List.getD_cons_zero, List.length_singleton, gt_iff_lt, lt_self_iff_false,
      if_false, Effect.hyprlandEvent.injEq, true_and]
    exact HyprlandMonitor.eventObj_eq _ _
  refine ⟨?_, ?_⟩
  · rw [HyprlandMonitor.processEvent_rawEvents, hraw]
  · rw [HyprlandMonitor.processEvent_log, hraw]
    simp

/-- C8, witness: the line `configreloaded`. -/
theorem processEvent_without_separator_witness :
    rawEvents (HyprlandMonitor.processEvent sampleParser HyprlandMonitor.init
        "configreloaded").log =
      rawEvents HyprlandMonitor.init.log ++ [Effect.hyprlandEvent "configreloaded"
        [("data", QJsonValue.string ""), ("name", QJsonValue.string "configreloaded")]] :=
  (processEvent_without_separator sampleParser HyprlandMonitor.init "configreloaded"
    (by decide)).1

/-- C9 (as amended): starting from an empty event buffer, the read `open` publishes nothing
and leaves the log as it was; the read `window>>/dev`, newline, `focusedmon>>DP-1`, newline,
then publishes exactly two raw events, in this order: name `openwindow` with data `/dev`,
and name `focusedmon` with data `DP-1`; the buffer is empty afterwards. -/
theorem two_reads_two_events (fromJson : JsonParser) (fromUtf8 : Utf8Decoder)
    (self : HyprlandMonitor) (hdec : fromUtf8.Ascii) (h : self.m_eventBuffer = []) :
    (HyprlandMonitor.onEventSocketReadyRead fromJson fromUtf8 self (asciiBytes "open")).log =
        self.log ∧
      rawEvents (HyprlandMonitor.onEventSocketReadyRead fromJson fromUtf8
          (HyprlandMonitor.onEventSocketReadyRead fromJson fromUtf8 self (asciiBytes "open"))
          (asciiBytes "window>>/dev\nfocusedmon>>DP-1\n")).log =
        rawEvents self.log ++
          [Effect.hyprlandEvent "openwindow"
            [("data", QJsonValue.string "/dev"), ("name", QJsonValue.string "openwindow")],
           Effect.hyprlandEvent "focusedmon"
            [("data", QJsonValue.string "DP-1"), ("name", QJsonValue.string "focusedmon")]] ∧
      (HyprlandMonitor.onEventSocketReadyRead fromJson fromUtf8
          (HyprlandMonitor.onEventSocketReadyRead fromJson fromUtf8 self (asciiBytes "open"))
          (asciiBytes "window>>/dev\nfocusedmon>>DP-1\n")).m_eventBuffer = [] := by
  have hfirst : HyprlandMonitor.onEventSocketReadyRead fromJson fromUtf8 self
      (asciiBytes "open") = { self with m_eventBuffer := asciiBytes "open" } := by
    unfold HyprlandMonitor.onEventSocketReadyRead
    simp only [h, List.nil_append]
    exact HyprlandMonitor.eventLoop_of_not_mem fromJson fromUtf8 _ _
      (show (10 : UInt8) ∉ asciiBytes "open" by decide)
  obtain ⟨hb, hl⟩ := HyprlandMonitor.onEventSocketReadyRead_spec fromJson fromUtf8
    { self with m_eventBuffer := asciiBytes "open" }
    (asciiBytes "window>>/dev\nfocusedmon>>DP-1\n")
  have hlines : completeLines (asciiBytes "open" ++ asciiBytes "window>>/dev\nfocusedmon>>DP-1\n")
      = [asciiBytes "openwindow>>/dev", asciiBytes "focusedmon>>DP-1"] := by decide
  have h1 : fromUtf8 (asciiBytes "openwindow>>/dev") = "openwindow>>/dev" :=
    (hdec _ (by decide)).trans (by decide)
  have h2 : fromUtf8 (asciiBytes "focusedmon>>DP-1") = "focusedmon>>DP-1" :=
    (hdec _ (by decide)).trans (by decide)
  have hev : (eventLines fromUtf8
      (asciiBytes "open" ++ asciiBytes "window>>/dev\nfocusedmon>>DP-1\n")).map rawEvent =
      [Effect.hyprlandEvent "openwindow"
        [("data", QJsonValue.string "/dev"), ("name", QJsonValue.string "openwindow")],
       Effect.hyprlandEvent "focusedmon"
        [("data", QJsonValue.string "DP-1"), ("name", QJsonValue.string "focusedmon")]] := by
    unfold eventLines
    rw [hlines]
    simp only [List.map_cons, List.map_nil, h1, h2]
    decide
  rw [hfirst]
  refine ⟨rfl, ?_, ?_⟩
  · rw [hl, hev]
  · rw [hb]
    show trailing (asciiBytes "open" ++ asciiBytes "window>>/dev\nfocusedmon>>DP-1\n") = []
    decide

/-- C9, witness: the two reads on a fresh object, with the sample parser and decoder. -/
theorem two_reads_two_events_witness :
    rawEvents (HyprlandMonitor.onEventSocketReadyRead sampleParser sampleDecoder
        (HyprlandMonitor.onEventSocketReadyRead sampleParser sampleDecoder
          HyprlandMonitor.init (asciiBytes "open"))
        (asciiBytes "window>>/dev\nfocusedmon>>DP-1\n")).log =
      rawEvents HyprlandMonitor.init.log ++
        [Effect.hyprlandEvent "openwindow"
          [("data", QJsonValue.string "/dev"), ("name", QJsonValue.string "openwindow")],
         Effect.hyprlandEvent "focusedmon"
          [("data", QJsonValue.string "DP-1"), ("name", QJsonValue.string "focusedmon")]] :=
  (two_reads_two_events sampleParser sampleDecoder HyprlandMonitor.init
    (fun _ _ => rfl) rfl).2.1

/-- C9, counterexample: after the two reads the first event published is not `openwindow`
with empty data; its data is `/dev`. -/
theorem two_reads_openwindow_data_not_empty :
    rawEvents (HyprlandMonitor.onEventSocketReadyRead sampleParser sampleDecoder
        (HyprlandMonitor.onEventSocketReadyRead sampleParser sampleDecoder
          HyprlandMonitor.init (asciiBytes "open"))
        (asciiBytes "window>>/dev\nfocusedmon>>DP-1\n")).log ≠
      [Effect.hyprlandEvent "openwindow"
        [("data", QJsonValue.string ""), ("name", QJsonValue.string "openwindow")],
       Effect.hyprlandEvent "focusedmon"
        [("data", QJsonValue.string "DP-1"), ("name", QJsonValue.string "focusedmon")]] := by
  decide

/-- C10: processing an event line issues exactly the four pulls of one refresh cycle, and
leaves the debounce timer alone, exactly when its name is one of `openwindow`, `closewindow`,
`movewindow`, `movewindowv2`; it starts the debounce timer once, and issues no pull, exactly
when its name is one of `workspace`, `focusedmon`, `activewindow`, `changefloatingmode`; for
any other name it does neither. So processing `k` lines with immediate names issues `k`
refresh cycles, one after another. -/
theorem processEvent_refresh_policy (fromJson : JsonParser) (self : HyprlandMonitor)
    (eventLine : QString) (lines : List QString) :
    ((requestsIssued (HyprlandMonitor.processEvent fromJson self eventLine).log =
          requestsIssued self.log ++ refreshCycle ∧
        timerStarts (HyprlandMonitor.processEvent fromJson self eventLine).log =
          timerStarts self.log) ↔ eventName eventLine ∈ immediateNames) ∧
      ((timerStarts (HyprlandMonitor.processEvent fromJson self eventLine).log =
          timerStarts self.log + 1 ∧
        requestsIssued (HyprlandMonitor.processEvent fromJson self eventLine).log =
          requestsIssued self.log) ↔ eventName eventLine ∈ debouncedNames) ∧
      (eventName eventLine ∉ immediateNames → eventName eventLine ∉ debouncedNames →
        requestsIssued (HyprlandMonitor.processEvent fromJson self eventLine).log =
          requestsIssued self.log ∧
        timerStarts (HyprlandMonitor.processEvent fromJson self eventLine).log =
          timerStarts self.log) ∧
      ((∀ l ∈ lines, eventName l ∈ immediateNames) →
        requestsIssued (lines.foldl (HyprlandMonitor.processEvent fromJson) self).log =
          requestsIssued self.log ++ (List.replicate lines.length refreshCycle).flatten) := by
  have hr := HyprlandMonitor.processEvent_requestsIssued fromJson self eventLine
  have ht := HyprlandMonitor.processEvent_timerStarts fromJson self eventLine
  have hdisj : eventName eventLine ∈ immediateNames → eventName eventLine ∉ debouncedNames := by
    intro h1 h2
    simp only [immediateNames, debouncedNames, List.mem_cons, List.mem_singleton,
      List.mem_nil_iff, or_false] at h1 h2
    rcases h1 with h | h | h | h <;> rw [h] at h2 <;> revert h2 <;> decide
  refine ⟨?_, ?_, ?_, ?_⟩
  · constructor
    · rintro ⟨h1, _⟩
      by_contra hn
      rw [hr, if_neg hn] at h1
      have := List.append_cancel_left h1
      exact absurd this (by decide)
    · intro h
      rw [hr, ht, if_pos h, if_neg (hdisj h)]
      exact ⟨rfl, rfl⟩
  · constructor
    · rintro ⟨h1, _⟩
      by_contra hn
      rw [ht, if_neg hn] at h1
      omega
    · intro h
      have hni : eventName eventLine ∉ immediateNames := fun hi => hdisj hi h
      rw [hr, ht, if_pos h, if_neg hni]
      exact ⟨rfl, by simp⟩
  · intro h1 h2
    rw [hr, ht, if_neg h1, if_neg h2]
    exact ⟨by simp, rfl⟩
  · intro hall
    induction lines generalizing self with
    | nil => simp
    | cons l rest ih =>
      have hl : eventName l ∈ immediateNames := hall l (List.mem_cons_self l rest)
      rw [List.foldl_cons,
        ih (HyprlandMonitor.processEvent fromJson self l)
          (HyprlandMonitor.processEvent_requestsIssued fromJson _ _)
          (HyprlandMonitor.processEvent_timerStarts fromJson _ _)
          (fun x hx => hall x (List.mem_cons_of_mem l hx)),
        HyprlandMonitor.processEvent_requestsIssued, if_pos hl]
      simp [List.replicate_succ, List.append_assoc]

/-- C10, witness: two immediate events on a fresh object issue two refresh cycles. -/
theorem processEvent_refresh_policy_witness :
    requestsIssued (["openwindow>>a", "closewindow>>b"].foldl
        (HyprlandMonitor.processEvent sampleParser) HyprlandMonitor.init).log =
      requestsIssued HyprlandMonitor.init.log ++
        (List.replicate ["openwindow>>a", "closewindow>>b"].length refreshCycle).flatten :=
  (processEvent_refresh_policy sampleParser HyprlandMonitor.init "openwindow>>a"
    ["openwindow>>a", "closewindow>>b"]).2.2.2 (by decide)

/-! ## Lookups: `windowByAddress`, `workspaceById` -/

theorem QString.isEmpty_iff (s : QString) : QString.isEmpty s = true ↔ s = "" := by
  unfold QString.isEmpty
  constructor
  · intro h
    have hd : s.data = [] := List.isEmpty_iff.mp h
    exact String.ext hd
  · intro h
    subst h
    rfl

/-- A window whose address reads as a non-empty string has an `address` member. -/
theorem contains_address_of_ne (val : QJsonValue) (h : addressOf val ≠ "") :
    QJsonObject.contains val.toObject "address" = true := by
  by_contra hn
  simp only [Bool.not_eq_true] at hn
  apply h
  unfold addressOf
  rw [QJsonObject.value_of_not_contains _ _ hn]
  rfl

/-- A record whose id reads as a number other than 0 has an `id` member. -/
theorem contains_id_of_ne (val : QJsonValue) (h : idOf val ≠ 0) :
    QJsonObject.contains val.toObject "id" = true := by
  by_contra hn
  simp only [Bool.not_eq_true] at hn
  apply h
  unfold idOf
  rw [QJsonObject.value_of_not_contains _ _ hn]
  rfl

namespace HyprlandMonitor

/-- `windowByAddress` returns the copy it made of the first window whose address reads as the
argument, after the read of its `address` member; the empty object when there is none. -/
theorem windowByAddressFrom_eq (address : QString) (l : List QJsonValue) :
    windowByAddressFrom address l =
      match l.find? (fun v => decide (addressOf v = address)) with
      | some w => QJsonObject.touch w.toObject "address"
      | none => [] := by
  induction l with
  | nil => rfl
  | cons v rest ih =>
    unfold windowByAddressFrom
    have hs : (QJsonObject.value (QJsonObject.touch v.toObject "address") "address").toString =
        addressOf v := QJsonObject.toString_value_touch _ _
    simp only [hs]
    by_cases h : addressOf v = address
    · simp [h, List.find?]
    · simp [h, List.find?, ih]

/-- For a non-empty address, `windowByAddress` returns the first window with that address as
it stands in the list. -/
theorem windowByAddressFrom_of_ne_empty (address : QString) (l : List QJsonValue)
    (h : address ≠ "") :
    windowByAddressFrom address l =
      match l.find? (fun v => decide (addressOf v = address)) with
      | some w => w.toObject
      | none => [] := by
  rw [windowByAddressFrom_eq]
  cases hf : l.find? (fun v => decide (addressOf v = address)) with
  | none => rfl
  | some w =>
    have hw : addressOf w = address := by simpa using List.find?_some hf
    simp only
    exact QJsonObject.touch_of_contains _ _ (contains_address_of_ne w (hw ▸ h))

/-- `workspaceById` returns the copy it made of the first record whose id reads as the
argument, after the read of its `id` member; the empty object when there is none. -/
theorem workspaceByIdFrom_eq (id : Int) (l : List QJsonValue) :
    workspaceByIdFrom id l =
      match l.find? (fun v => decide (idOf v = id)) with
      | some w => QJsonObject.touch w.toObject "id"
      | none => [] := by
  induction l with
  | nil => rfl
  | cons v rest ih =>
    unfold workspaceByIdFrom
    have hs : (QJsonObject.value (QJsonObject.touch v.toObject "id") "id").toInt 0 =
        idOf v := QJsonObject.toInt_value_touch _ _ _
    simp only [hs]
    by_cases h : idOf v = id
    · simp [h, List.find?]
    · simp [h, List.find?, ih]

/-- For an id other than 0, `workspaceById` returns the first record with that id as it
stands in the list. -/
theorem workspaceByIdFrom_of_ne_zero (id : Int) (l : List QJsonValue) (h : id ≠ 0) :
    workspaceByIdFrom id l =
      match l.find? (fun v => decide (idOf v = id)) with
      | some w => w.toObject
      | none => [] := by
  rw [workspaceByIdFrom_eq]
  cases hf : l.find? (fun v => decide (idOf v = id)) with
  | none => rfl
  | some w =>
    have hw : idOf w = id := by simpa using List.find?_some hf
    simp only
    exact QJsonObject.touch_of_contains _ _ (contains_id_of_ne w (hw ▸ h))

end HyprlandMonitor

/-! ## Claims on `dispatch` and on the lookups -/

/-- C12 (as amended): when the connection to the request socket is established,
`dispatch(command)` writes `dispatch <command>` and then arms exactly one single-shot timer of
100 ms for the refresh; when the connection fails it writes nothing and arms nothing. -/
theorem dispatch_schedules_refresh_when_connected (self : HyprlandMonitor) (command : QString)
    (response : QByteArray) (rest : List (Option QByteArray)) :
    (HyprlandMonitor.dispatch { self with replies := some response :: rest } command).log =
        self.log ++ [Effect.write ("dispatch " ++ command), Effect.singleShot 100] ∧
      (HyprlandMonitor.dispatch { self with replies := none :: rest } command).log =
        self.log := by
  simp [HyprlandMonitor.dispatch, HyprlandMonitor.sendDispatch, HyprlandMonitor.emit]

/-- C12, counterexample: `dispatch("workspace 2")` on an object whose connection attempt fails
arms no timer at all. -/
theorem dispatch_without_connection_schedules_nothing :
    (HyprlandMonitor.dispatch { HyprlandMonitor.init with replies := [none] }
        "workspace 2").log = [] := by
  decide

/-- C13, at the failing input: asked for the empty address, `windowByAddress` returns a record
that has no `address` member at all, with a `null` member `address` added, instead of the
empty object. -/
theorem windowByAddress_finds_record_without_address :
    QJsonObject.contains (bareRecord "t").toObject "address" = false ∧
      HyprlandMonitor.windowByAddress
          { HyprlandMonitor.init with m_windowList := [bareRecord "t"] } "" =
        [("address", QJsonValue.null), ("title", QJsonValue.string "t")] ∧
      HyprlandMonitor.windowByAddress
          { HyprlandMonitor.init with m_windowList := [bareRecord "t"] } "" ≠ [] := by
  decide

/-- C14, at the failing input: asked for id 0, `workspaceById` returns a record that has no
`id` member at all, with a `null` member `id` added, instead of the empty object. -/
theorem workspaceById_finds_record_without_id :
    QJsonObject.contains (bareRecord "t").toObject "id" = false ∧
      HyprlandMonitor.workspaceById
          { HyprlandMonitor.init with m_workspaces := [bareRecord "t"] } 0 =
        [("id", QJsonValue.null), ("title", QJsonValue.string "t")] ∧
      HyprlandMonitor.workspaceById
          { HyprlandMonitor.init with m_workspaces := [bareRecord "t"] } 0 ≠ [] := by
  decide

/-- C18: for an event line with an immediate name, `processEvent` is the complete refresh
cycle followed by the emission of the raw event, so the snapshot at the moment of the emission
is the refreshed one and all four pulls have been issued; and for every event line the raw
event is emitted exactly once, as the last effect. -/
theorem processEvent_refresh_before_rawEvent (fromJson : JsonParser) (self : HyprlandMonitor)
    (eventLine : QString) :
    (eventName eventLine ∈ immediateNames →
        HyprlandMonitor.processEvent fromJson self eventLine =
          (HyprlandMonitor.refresh fromJson self).emit (rawEvent eventLine) ∧
        requestsIssued (HyprlandMonitor.refresh fromJson self).log =
          requestsIssued self.log ++ refreshCycle) ∧
      rawEvents (HyprlandMonitor.processEvent fromJson self eventLine).log =
        rawEvents self.log ++ [rawEvent eventLine] ∧
      (HyprlandMonitor.processEvent fromJson self eventLine).log.getLast? =
        some (rawEvent eventLine) := by
  refine ⟨?_, ?_, ?_⟩
  · intro h
    exact ⟨HyprlandMonitor.processEvent_of_immediate fromJson self eventLine h,
      (HyprlandMonitor.requestData_log fromJson self).2.1⟩
  · exact HyprlandMonitor.processEvent_rawEvents fromJson self eventLine
  · rw [HyprlandMonitor.processEvent_log]
    simp

/-- C18, witness: on `openwindow>>x`, with the clients pull answering the sample windows, the
window list is already the new one when the raw event is emitted. -/
theorem processEvent_refresh_before_rawEvent_witness :
    (HyprlandMonitor.processEvent sampleParser
        { HyprlandMonitor.init with replies := [some [4]] } "openwindow>>x").m_windowList =
      sampleWindows :=
  ((processEvent_refresh_before_rawEvent sampleParser
      { HyprlandMonitor.init with replies := [some [4]] } "openwindow>>x").1
    (by decide)).1 ▸ (by decide)

/-! ## Views: `addresses`, `workspaceIds`, `windowByAddressMap` -/

namespace QVariantMap

theorem entry_insert_self (m : QVariantMap) (k : QString) (v : QVariant) :
    value (insert m k v) k = v := by
  induction m with
  | nil => simp [insert, value]
  | cons p rest ih =>
    obtain ⟨k', w⟩ := p
    by_cases h : k' = k
    · simp [insert, value, h]
    · by_cases h2 : k.data < k'.data
      · simp [insert, value, h, h2]
      · simp [insert, value, h, h2, ih]

theorem entry_insert_ne (m : QVariantMap) (k k' : QString) (v : QVariant) (hk : k ≠ k') :
    value (insert m k v) k' = value m k' := by
  induction m with
  | nil => simp [insert, value, hk]
  | cons p rest ih =>
    obtain ⟨k0, w⟩ := p
    by_cases h : k0 = k
    · subst h
      simp [insert, value, hk]
    · by_cases h2 : k.data < k0.data
      · simp [insert, value, h, h2, hk]
      · simp [insert, value, h, h2, ih]

theorem mem_keys_insert (m : QVariantMap) (k k' : QString) (v : QVariant) :
    k' ∈ keys (insert m k v) ↔ k' = k ∨ k' ∈ keys m := by
  induction m with
  | nil => simp [insert, keys]
  | cons p rest ih =>
    obtain ⟨k0, w⟩ := p
    simp only [keys] at ih
    by_cases h : k0 = k
    · subst h
      simp [insert, keys]
    · by_cases h2 : k.data < k0.data
      · simp [insert, keys, h, h2]
      · simp only [insert, keys, h, h2, if_false, List.map_cons, List.mem_cons, ih]
        tauto

end QVariantMap

namespace HyprlandMonitor

/-- One turn of the loop of `addresses`, in the words of the claims. -/
theorem addressesStep_eq (addrs : QVariantList) (val : QJsonValue) :
    addressesStep addrs val =
      if addressOf val ≠ "" then addrs ++ [QVariant.string (addressOf val)] else addrs := by
  unfold addressesStep
  have hs : (QJsonObject.value (QJsonObject.touch val.toObject "address") "address").toString =
      addressOf val := QJsonObject.toString_value_touch _ _
  simp only [hs]
  by_cases h : addressOf val = ""
  · have he : QString.isEmpty (addressOf val) = true := (QString.isEmpty_iff _).mpr h
    rw [if_neg (not_not.mpr he), if_neg (not_not.mpr h)]
  · have he : ¬ QString.isEmpty (addressOf val) = true := fun e => h ((QString.isEmpty_iff _).mp e)
    rw [if_pos he, if_pos h]

/-- The loop of `addresses`: the addresses of the windows with a non-empty address, in list
order, after what was collected before. -/
theorem foldl_addressesStep (l : List QJsonValue) (addrs : QVariantList) :
    l.foldl addressesStep addrs =
      addrs ++ (l.filter (fun v => decide (addressOf v ≠ ""))).map
        (fun v => QVariant.string (addressOf v)) := by
  induction l generalizing addrs with
  | nil => simp
  | cons v rest ih =>
    rw [List.foldl_cons, ih, addressesStep_eq]
    by_cases h : addressOf v = ""
    · simp [h]
    · simp [h]

/-- One turn of the loop of `windowByAddressMap`, in the words of the claims: a window with a
non-empty address is entered under it, as it stands in the list. -/
theorem windowByAddressMapStep_eq (map : QVariantMap) (val : QJsonValue) :
    windowByAddressMapStep map val =
      if addressOf val ≠ "" then
        QVariantMap.insert map (addressOf val) (QVariant.jsonObject val.toObject)
      else map := by
  unfold windowByAddressMapStep
  have hs : (QJsonObject.value (QJsonObject.touch val.toObject "address") "address").toString =
      addressOf val := QJsonObject.toString_value_touch _ _
  simp only [hs]
  by_cases h : addressOf val = ""
  · have he : QString.isEmpty (addressOf val) = true := (QString.isEmpty_iff _).mpr h
    rw [if_neg (not_not.mpr he), if_neg (not_not.mpr h)]
  · have he : ¬ QString.isEmpty (addressOf val) = true := fun e => h ((QString.isEmpty_iff _).mp e)
    rw [if_pos he, if_pos h, QJsonObject.touch_of_contains _ _ (contains_address_of_ne val h)]

/-- The keys of the map built by the loop of `windowByAddressMap`. -/
theorem mem_keys_foldl_mapStep (l : List QJsonValue) (map : QVariantMap) (k : QString) :
    k ∈ QVariantMap.keys (l.foldl windowByAddressMapStep map) ↔
      k ∈ QVariantMap.keys map ∨ (k ≠ "" ∧ ∃ w ∈ l, addressOf w = k) := by
  induction l generalizing map with
  | nil => simp
  | cons v rest ih =>
    rw [List.foldl_cons, ih, windowByAddressMapStep_eq]
    by_cases h : addressOf v = ""
    · simp only [h, ne_eq, not_true_eq_false, if_false, List.mem_cons, exists_eq_or_imp]
      constructor
      · rintro (hk | ⟨hne, hw⟩)
        · exact Or.inl hk
        · exact Or.inr ⟨hne, Or.inr hw⟩
      · rintro (hk | ⟨hne, hw | hw⟩)
        · exact Or.inl hk
        · exact absurd hw.symm hne
        · exact Or.inr ⟨hne, hw⟩
    · simp only [h, ne_eq, not_false_eq_true, if_true, QVariantMap.mem_keys_insert,
        List.mem_cons, exists_eq_or_imp]
      constructor
      · rintro ((hk | hk) | ⟨hne, hw⟩)
        · exact Or.inr ⟨hk ▸ h, Or.inl hk.symm⟩
        · exact Or.inl hk
        · exact Or.inr ⟨hne, Or.inr hw⟩
      · rintro (hk | ⟨hne, hw | hw⟩)
        · exact Or.inl (Or.inr hk)
        · exact Or.inl (Or.inl hw.symm)
        · exact Or.inr ⟨hne, hw⟩

/-- Windows with other addresses leave the entry of a key as it is. -/
theorem value_foldl_mapStep_of_no_match (l : List QJsonValue) (map : QVariantMap)
    (k : QString) (h : ∀ x ∈ l, addressOf x ≠ k) :
    QVariantMap.value (l.foldl windowByAddressMapStep map) k = QVariantMap.value map k := by
  induction l generalizing map with
  | nil => rfl
  | cons v rest ih =>
    rw [List.foldl_cons, ih _ (fun x hx => h x (List.mem_cons_of_mem v hx)),
      windowByAddressMapStep_eq]
    split
    · exact QVariantMap.entry_insert_ne _ _ _ _ (h v (List.mem_cons_self v rest))
    · rfl

/-- The entry of a key is the last window in list order with that address. -/
theorem value_foldl_mapStep_of_last (pre post : List QJsonValue) (w : QJsonValue)
    (map : QVariantMap) (hw : addressOf w ≠ "")
    (hpost : ∀ x ∈ post, addressOf x ≠ addressOf w) :
    QVariantMap.value ((pre ++ w :: post).foldl windowByAddressMapStep map) (addressOf w) =
      QVariant.jsonObject w.toObject := by
  rw [List.foldl_append, List.foldl_cons, value_foldl_mapStep_of_no_match post _ _ hpost,
    windowByAddressMapStep_eq, if_pos hw, QVariantMap.entry_insert_self]

end HyprlandMonitor

/-- A list with an element that satisfies `p` splits around the last such element. -/
theorem exists_last_split {α : Type} (p : α → Prop) (l : List α) (h : ∃ x ∈ l, p x) :
    ∃ pre w post, l = pre ++ w :: post ∧ p w ∧ ∀ x ∈ post, ¬ p x := by
  induction l with
  | nil => simp at h
  | cons v rest ih =>
    by_cases hr : ∃ x ∈ rest, p x
    · obtain ⟨pre, w, post, hl, hw, hpost⟩ := ih hr
      exact ⟨v :: pre, w, post, by simp [hl], hw, hpost⟩
    · obtain ⟨x, hx, hpx⟩ := h
      rcases List.mem_cons.mp hx with rfl | hx
      · exact ⟨[], x, rest, rfl, hpx, fun y hy hpy => hr ⟨y, hy, hpy⟩⟩
      · exact absurd ⟨x, hx, hpx⟩ hr

theorem find_first_of_split {α : Type} (p : α → Bool) (pre post : List α) (w : α)
    (hpre : ∀ x ∈ pre, p x = false) (hw : p w = true) :
    (pre ++ w :: post).find? p = some w := by
  induction pre with
  | nil => simp [List.find?, hw]
  | cons v rest ih =>
    have hv : p v = false := hpre v (List.mem_cons_self v rest)
    simp only [List.cons_append, List.find?, hv]
    exact ih (fun x hx => hpre x (List.mem_cons_of_mem v hx))

/-- With pairwise distinct non-empty addresses, no window before a window with a non-empty
address carries the same address. -/
theorem no_earlier_of_nodup (pre post : List QJsonValue) (w : QJsonValue)
    (hw : addressOf w ≠ "")
    (hnodup : (((pre ++ w :: post).filter (fun v => decide (addressOf v ≠ ""))).map
      (fun v => QVariant.string (addressOf v))).Nodup) :
    ∀ x ∈ pre, addressOf x ≠ addressOf w := by
  intro x hx hxw
  rw [List.filter_append, List.map_append, List.nodup_append] at hnodup
  obtain ⟨_, _, hdisj⟩ := hnodup
  apply hdisj (a := QVariant.string (addressOf w))
  · rw [List.mem_map]
    refine ⟨x, ?_, by rw [hxw]⟩
    rw [List.mem_filter]
    exact ⟨hx, by simpa [hxw] using hw⟩
  · rw [List.mem_map]
    refine ⟨w, ?_, rfl⟩
    rw [List.mem_filter]
    exact ⟨List.mem_cons_self w post, by simpa using hw⟩

/-! ## Claims on the views -/

/-- C17: the keys of `windowByAddressMap()` are exactly the elements of `addresses()`; the
value under a key is the last window in list order with that address; when the elements of
`addresses()` are pairwise distinct, the value under every key is what `windowByAddress`
returns for it; and when an address occurs twice the two can differ. -/
theorem windowByAddressMap_last_window (self : HyprlandMonitor) :
    (∀ a, a ∈ QVariantMap.keys (HyprlandMonitor.windowByAddressMap self) ↔
        QVariant.string a ∈ HyprlandMonitor.addresses self) ∧
      (∀ a ∈ QVariantMap.keys (HyprlandMonitor.windowByAddressMap self),
        ∃ pre w post, self.m_windowList = pre ++ w :: post ∧ addressOf w = a ∧
          (∀ x ∈ post, addressOf x ≠ a) ∧
          QVariantMap.value (HyprlandMonitor.windowByAddressMap self) a =
            QVariant.jsonObject w.toObject) ∧
      ((HyprlandMonitor.addresses self).Nodup →
        ∀ a ∈ QVariantMap.keys (HyprlandMonitor.windowByAddressMap self),
          QVariantMap.value (HyprlandMonitor.windowByAddressMap self) a =
            QVariant.jsonObject (HyprlandMonitor.windowByAddress self a)) ∧
      (∃ (other : HyprlandMonitor) (a : QString),
        a ∈ QVariantMap.keys (HyprlandMonitor.windowByAddressMap other) ∧
          QVariantMap.value (HyprlandMonitor.windowByAddressMap other) a ≠
            QVariant.jsonObject (HyprlandMonitor.windowByAddress other a)) := by
  have hkeys : ∀ a, a ∈ QVariantMap.keys (HyprlandMonitor.windowByAddressMap self) ↔
      (a ≠ "" ∧ ∃ w ∈ self.m_windowList, addressOf w = a) := by
    intro a
    unfold HyprlandMonitor.windowByAddressMap
    rw [HyprlandMonitor.mem_keys_foldl_mapStep]
    simp [QVariantMap.keys]
  have haddr : HyprlandMonitor.addresses self =
      (self.m_windowList.filter (fun v => decide (addressOf v ≠ ""))).map
        (fun v => QVariant.string (addressOf v)) := by
    unfold HyprlandMonitor.addresses
    rw [HyprlandMonitor.foldl_addressesStep]
    simp
  have hlast : ∀ a ∈ QVariantMap.keys (HyprlandMonitor.windowByAddressMap self),
      ∃ pre w post, self.m_windowList = pre ++ w :: post ∧ addressOf w = a ∧
        (∀ x ∈ post, addressOf x ≠ a) ∧
        QVariantMap.value (HyprlandMonitor.windowByAddressMap self) a =
          QVariant.jsonObject w.toObject := by
    intro a ha
    obtain ⟨hne, hex⟩ := (hkeys a).mp ha
    obtain ⟨pre, w, post, hl, hw, hpost⟩ :=
      exists_last_split (fun v => addressOf v = a) self.m_windowList hex
    refine ⟨pre, w, post, hl, hw, hpost, ?_⟩
    unfold HyprlandMonitor.windowByAddressMap
    rw [hl]
    subst hw
    exact HyprlandMonitor.value_foldl_mapStep_of_last pre post w [] hne hpost
  refine ⟨?_, hlast, ?_, ?_⟩
  · intro a
    rw [hkeys, haddr, List.mem_map]
    constructor
    · rintro ⟨hne, w, hw, hwa⟩
      refine ⟨w, ?_, by rw [hwa]⟩
      rw [List.mem_filter]
      exact ⟨hw, by simpa [hwa] using hne⟩
    · rintro ⟨w, hw, hwa⟩
      rw [List.mem_filter] at hw
      have hwa' : addressOf w = a := by simpa using hwa
      exact ⟨by simpa [hwa'] using hw.2, w, hw.1, hwa'⟩
  · intro hnodup a ha
    obtain ⟨pre, w, post, hl, hw, _, hval⟩ := hlast a ha
    have hne : a ≠ "" := ((hkeys a).mp ha).1
    rw [hval]
    congr 1
    unfold HyprlandMonitor.windowByAddress
    rw [HyprlandMonitor.windowByAddressFrom_of_ne_empty a _ hne, hl]
    rw [haddr, hl] at hnodup
    have hpre := no_earlier_of_nodup pre post w (hw ▸ hne) hnodup
    rw [find_first_of_split _ pre post w (fun x hx => by simpa [hw] using hpre x hx)
      (by simpa using hw)]
  · exact ⟨{ HyprlandMonitor.init with m_windowList := twinWindows }, "0x1", by decide,
      by decide⟩

/-- C17, witness: with the addresses `0x2` and `0x1`, each once, the value under `0x1` is the
window `windowByAddress` returns for `0x1`. -/
theorem windowByAddressMap_last_window_witness :
    QVariantMap.value (HyprlandMonitor.windowByAddressMap { HyprlandMonitor.init with
        m_windowList := [titledWindow "0x2" "a", titledWindow "0x1" "c"] }) "0x1" =
      QVariant.jsonObject (HyprlandMonitor.windowByAddress { HyprlandMonitor.init with
        m_windowList := [titledWindow "0x2" "a", titledWindow "0x1" "c"] } "0x1") :=
  (windowByAddressMap_last_window { HyprlandMonitor.init with
      m_windowList := [titledWindow "0x2" "a", titledWindow "0x1" "c"] }).2.2.1
    (by decide) "0x1" (by decide)

/-! ## The event buffer and the fuel of the loop -/

/-- The bytes after the last newline, stated on the stream itself: the whole stream when it
has no newline, otherwise what follows a newline and contains none. -/
theorem trailingGo_cases (cur s : QByteArray) :
    ((10 : UInt8) ∉ s ∧ trailingGo cur s = cur ++ s) ∨
      ∃ pre, cur ++ s = pre ++ 10 :: trailingGo cur s := by
  induction s generalizing cur with
  | nil => left; simp [trailingGo]
  | cons b rest ih =>
    by_cases hb : b = 10
    · subst hb
      right
      simp only [trailingGo, if_true]
      rcases ih [] with ⟨_, h⟩ | ⟨pre, h⟩
      · exact ⟨cur, by rw [h]; simp⟩
      · simp only [List.nil_append] at h
        exact ⟨cur ++ 10 :: pre, by simpa using congrArg (fun r => cur ++ 10 :: r) h⟩
    · simp only [trailingGo, hb, if_false]
      rcases ih (cur ++ [b]) with ⟨hno, h⟩ | ⟨pre, h⟩
      · left
        refine ⟨?_, by rw [h]; simp⟩
        simp only [List.mem_cons, not_or]
        exact ⟨fun e => hb e.symm, hno⟩
      · right
        exact ⟨pre, by rw [← h]; simp⟩

theorem trailing_cases (s : QByteArray) :
    ((10 : UInt8) ∉ s ∧ trailing s = s) ∨ ∃ pre, s = pre ++ 10 :: trailing s := by
  simpa [trailing] using trailingGo_cases [] s

namespace HyprlandMonitor

/-- Fuel beyond the length of the buffer is never used: the loop has reached its exit
condition before. -/
theorem eventLoop_fuel (fromJson : JsonParser) (fromUtf8 : Utf8Decoder) (fuel₁ fuel₂ : Nat)
    (self : HyprlandMonitor) (h₁ : self.m_eventBuffer.length ≤ fuel₁)
    (h₂ : self.m_eventBuffer.length ≤ fuel₂) :
    eventLoop fromJson fromUtf8 fuel₁ self = eventLoop fromJson fromUtf8 fuel₂ self := by
  induction fuel₁ generalizing fuel₂ self with
  | zero =>
    have hnil : self.m_eventBuffer = [] := List.length_eq_zero.mp (Nat.le_zero.mp h₁)
    have hno : (10 : UInt8) ∉ self.m_eventBuffer := by rw [hnil]; simp
    rw [eventLoop_of_not_mem fromJson fromUtf8 0 self hno,
      eventLoop_of_not_mem fromJson fromUtf8 fuel₂ self hno]
  | succ n ih =>
    by_cases hmem : (10 : UInt8) ∈ self.m_eventBuffer
    · obtain ⟨hsplit, _⟩ := take_indexOf_append_drop self.m_eventBuffer hmem
      have hlen : (self.m_eventBuffer.drop (self.m_eventBuffer.indexOf (10 : UInt8) + 1)).length
          + 1 ≤ self.m_eventBuffer.length := by
        have := congrArg List.length hsplit
        simp only [List.length_append, List.length_cons] at this
        omega
      cases fuel₂ with
      | zero => omega
      | succ m =>
        rw [eventLoop_succ fromJson fromUtf8 n self hmem,
          eventLoop_succ fromJson fromUtf8 m self hmem]
        apply ih
        · split
          · rw [processEvent_eventBuffer]
            simp only
            omega
          · simp only
            omega
        · split
          · rw [processEvent_eventBuffer]
            simp only
            omega
          · simp only
            omega
    · rw [eventLoop_of_not_mem fromJson fromUtf8 (n + 1) self hmem,
        eventLoop_of_not_mem fromJson fromUtf8 fuel₂ self hmem]

end HyprlandMonitor

/-! ## Claim on the event buffer -/

/-- C16: after the read handler returns, the event buffer contains no newline byte and holds
the bytes of (prior buffer followed by the read) that come after the last newline, the whole
concatenation when it has none; so a buffer without newline stays without newline; and the
loop of the handler has reached its exit condition within the turns it is given: any larger
number of turns gives the same result. -/
theorem onEventSocketReadyRead_buffer (fromJson : JsonParser) (fromUtf8 : Utf8Decoder)
    (self : HyprlandMonitor) (read : QByteArray) :
    (10 : UInt8) ∉
        (HyprlandMonitor.onEventSocketReadyRead fromJson fromUtf8 self read).m_eventBuffer ∧
      (((10 : UInt8) ∉ self.m_eventBuffer ++ read ∧
          (HyprlandMonitor.onEventSocketReadyRead fromJson fromUtf8 self read).m_eventBuffer =
            self.m_eventBuffer ++ read) ∨
        ∃ pre, self.m_eventBuffer ++ read = pre ++ 10 ::
          (HyprlandMonitor.onEventSocketReadyRead fromJson fromUtf8 self read).m_eventBuffer) ∧
      (∀ fuel, (self.m_eventBuffer ++ read).length ≤ fuel →
        HyprlandMonitor.eventLoop fromJson fromUtf8 fuel
            { self with m_eventBuffer := self.m_eventBuffer ++ read } =
          HyprlandMonitor.onEventSocketReadyRead fromJson fromUtf8 self read) := by
  have hb := (HyprlandMonitor.onEventSocketReadyRead_spec fromJson fromUtf8 self read).1
  refine ⟨?_, ?_, ?_⟩
  · rw [hb]
    exact trailing_not_mem _
  · rw [hb]
    exact trailing_cases _
  · intro fuel hfuel
    unfold HyprlandMonitor.onEventSocketReadyRead
    exact HyprlandMonitor.eventLoop_fuel fromJson fromUtf8 _ _ _ hfuel (le_refl _)

/-- C16, witness: the buffer `ab` followed by the read `c`, newline, `de`, newline, `f`
leaves `f` in the buffer. -/
theorem onEventSocketReadyRead_buffer_witness :
    (HyprlandMonitor.onEventSocketReadyRead sampleParser sampleDecoder
        { HyprlandMonitor.init with m_eventBuffer := asciiBytes "ab" }
        (asciiBytes "c\nde\nf")).m_eventBuffer = asciiBytes "f" ∧
      (10 : UInt8) ∉ (HyprlandMonitor.onEventSocketReadyRead sampleParser sampleDecoder
        { HyprlandMonitor.init with m_eventBuffer := asciiBytes "ab" }
        (asciiBytes "c\nde\nf")).m_eventBuffer :=
  ⟨by decide,
    (onEventSocketReadyRead_buffer sampleParser sampleDecoder
      { HyprlandMonitor.init with m_eventBuffer := asciiBytes "ab" } (asciiBytes "c\nde\nf")).1⟩

/-! ## The debounce timer on the clock -/

theorem not_immediate_of_debounced (name : QString) (h : name ∈ debouncedNames) :
    name ∉ immediateNames := by
  intro hi
  simp only [immediateNames, debouncedNames, List.mem_cons, List.mem_singleton,
    List.mem_nil_iff, or_false] at h hi
  rcases hi with e | e | e | e <;> rw [e] at h <;> revert h <;> decide

namespace Clocked

/-- Time that passes before the timer is due changes nothing. -/
theorem advance_of_not_due (fromJson : JsonParser) (c : Clocked) (now : Nat)
    (h : ∀ due, c.m_debounceTimer.deadline = some due → now < due) :
    advance fromJson c now = c := by
  unfold advance
  cases hd : c.m_debounceTimer.deadline with
  | none => rfl
  | some due =>
    have := h due hd
    simp only
    rw [if_neg (by omega)]

/-- A debounced event that arrives before the timer is due: nothing fires, no pull is issued,
and the timer is restarted at the arrival. -/
theorem event_of_debounced (fromJson : JsonParser) (c : Clocked) (arrival : Nat × QString)
    (hname : eventName arrival.2 ∈ debouncedNames)
    (h : ∀ due, c.m_debounceTimer.deadline = some due → arrival.1 < due) :
    (event fromJson c arrival).fired = c.fired ∧
      requestsIssued (event fromJson c arrival).self.log = requestsIssued c.self.log ∧
      (event fromJson c arrival).m_debounceTimer = c.m_debounceTimer.start arrival.1 := by
  unfold event
  rw [advance_of_not_due fromJson c arrival.1 h]
  have ht := HyprlandMonitor.processEvent_timerStarts fromJson c.self arrival.2
  have hr := HyprlandMonitor.processEvent_requestsIssued fromJson c.self arrival.2
  rw [if_pos hname] at ht
  rw [if_neg (not_immediate_of_debounced _ hname), List.append_nil] at hr
  refine ⟨rfl, hr, ?_⟩
  simp only
  rw [if_pos (by omega)]

/-- A burst of debounced events, the first of which arrives before the timer is due: nothing
fires, no pull is issued, and the timer is left pending 50 ms after the last arrival. -/
theorem run_of_burst (fromJson : JsonParser) (arrivals : List (Nat × QString)) (c : Clocked)
    (hint : c.m_debounceTimer.interval = 50)
    (hnames : ∀ a ∈ arrivals, eventName a.2 ∈ debouncedNames)
    (hburst : IsBurst arrivals)
    (h : ∀ a ∈ arrivals.head?, ∀ due, c.m_debounceTimer.deadline = some due → a.1 < due) :
    (run fromJson c arrivals).fired = c.fired ∧
      requestsIssued (run fromJson c arrivals).self.log = requestsIssued c.self.log ∧
      (run fromJson c arrivals).m_debounceTimer.interval = 50 ∧
      (run fromJson c arrivals).m_debounceTimer.deadline =
        (match arrivals.getLast? with
          | some a => some (a.1 + 50)
          | none => c.m_debounceTimer.deadline) := by
  induction arrivals generalizing c with
  | nil => exact ⟨rfl, rfl, hint, rfl⟩
  | cons a rest ih =>
    obtain ⟨hf, hr, ht⟩ := event_of_debounced fromJson c a
      (hnames a (List.mem_cons_self a rest)) (h a (by simp))
    have hint1 : (event fromJson c a).m_debounceTimer.interval = 50 := by
      rw [ht]
      exact hint
    have hd1 : (event fromJson c a).m_debounceTimer.deadline = some (a.1 + 50) := by
      rw [ht]
      simp [QTimer.start, hint]
    have hrest : IsBurst rest := List.Chain'.tail hburst
    have hhead : ∀ b ∈ rest.head?, ∀ due,
        (event fromJson c a).m_debounceTimer.deadline = some due → b.1 < due := by
      intro b hb due hdue
      rw [hd1] at hdue
      cases rest with
      | nil => simp at hb
      | cons b' rest' =>
        simp only [List.head?_cons, Option.mem_def, Option.some.injEq] at hb
        subst hb
        have := (List.chain'_cons.mp hburst).1
        simp only [Option.some.injEq] at hdue
        omega
    obtain ⟨ihf, ihr, ihi, ihd⟩ := ih (event fromJson c a) hint1
      (fun x hx => hnames x (List.mem_cons_of_mem a hx)) hrest hhead
    have hrun : run fromJson c (a :: rest) = run fromJson (event fromJson c a) rest := rfl
    rw [hrun]
    refine ⟨ihf.trans hf, ihr.trans hr, ihi, ?_⟩
    rw [ihd, hd1]
    cases rest with
    | nil => rfl
    | cons b rest' =>
      rw [List.getLast?_cons_cons]
      cases hg : (b :: rest').getLast? with
      | none => exact absurd (List.getLast?_eq_none_iff.mp hg) (List.cons_ne_nil b rest')
      | some x => rfl

end Clocked

/-! ## Claim on the debounce timer -/

/-- C11: with the debounce timer as the constructor sets it up (single-shot, 50 ms) and not
pending, a burst of debounced events, each arriving less than 50 ms after the one before it,
fires exactly one refresh cycle, 50 ms after the last event of the burst: during the burst
nothing fires and the one deadline is that of the latest event, and once 50 ms have passed
since the last event the timer has fired once, at that time, issued the four pulls of one
cycle, and is no longer pending. -/
theorem debounce_burst_fires_once (fromJson : JsonParser) (c : Clocked)
    (arrivals : List (Nat × QString)) (last : Nat × QString) (now : Nat)
    (hint : c.m_debounceTimer.interval = 50) (hidle : c.m_debounceTimer.deadline = none)
    (hnames : ∀ a ∈ arrivals, eventName a.2 ∈ debouncedNames)
    (hburst : IsBurst arrivals) (hlast : arrivals.getLast? = some last)
    (hnow : last.1 + 50 ≤ now) :
    (Clocked.advance fromJson (Clocked.run fromJson c arrivals) now).fired =
        c.fired ++ [last.1 + 50] ∧
      requestsIssued (Clocked.advance fromJson (Clocked.run fromJson c arrivals) now).self.log =
        requestsIssued c.self.log ++ refreshCycle ∧
      (Clocked.advance fromJson (Clocked.run fromJson c arrivals) now).m_debounceTimer.deadline =
        none ∧
      ∀ k, (Clocked.run fromJson c (arrivals.take k)).fired = c.fired ∧
        requestsIssued (Clocked.run fromJson c (arrivals.take k)).self.log =
          requestsIssued c.self.log ∧
        (Clocked.run fromJson c (arrivals.take k)).m_debounceTimer.deadline =
          (arrivals.take k).getLast?.map (fun a => a.1 + 50) := by
  have hrun : ∀ l : List (Nat × QString), (∀ a ∈ l, eventName a.2 ∈ debouncedNames) →
      IsBurst l →
      (Clocked.run fromJson c l).fired = c.fired ∧
        requestsIssued (Clocked.run fromJson c l).self.log = requestsIssued c.self.log ∧
        (Clocked.run fromJson c l).m_debounceTimer.deadline =
          l.getLast?.map (fun a => a.1 + 50) := by
    intro l hl hb
    obtain ⟨hf, hr, _, hd⟩ := Clocked.run_of_burst fromJson l c hint hl hb
      (fun a _ due hdue => by rw [hidle] at hdue; cases hdue)
    refine ⟨hf, hr, ?_⟩
    rw [hd]
    cases l.getLast? with
    | none => simpa using hidle
    | some a => rfl
  obtain ⟨hf, hr, hd⟩ := hrun arrivals hnames hburst
  rw [hlast] at hd
  refine ⟨?_, ?_, ?_, ?_⟩
  · unfold Clocked.advance
    rw [hd]
    simp only [Option.map_some']
    rw [if_pos hnow]
    simp [hf]
  · unfold Clocked.advance
    rw [hd]
    simp only [Option.map_some']
    rw [if_pos hnow]
    simp only
    rw [(HyprlandMonitor.requestData_log fromJson _).2.1, hr]
  · unfold Clocked.advance
    rw [hd]
    simp only [Option.map_some']
    rw [if_pos hnow]
    rfl
  · intro k
    exact hrun (arrivals.take k) (fun a ha => hnames a (List.mem_of_mem_take ha))
      (List.Chain'.take hburst k)

/-- C11, witness: debounced events at 0, 30 and 70 ms on a fresh object fire the timer once,
at 120 ms. -/
theorem debounce_burst_fires_once_witness :
    (Clocked.advance sampleParser
        (Clocked.run sampleParser
          { self := HyprlandMonitor.init, m_debounceTimer := Clocked.debounceTimer, fired := [] }
          [(0, "workspace>>1"), (30, "workspace>>2"), (70, "focusedmon>>x")]) 500).fired =
      [120] :=
  (debounce_burst_fires_once sampleParser
    { self := HyprlandMonitor.init, m_debounceTimer := Clocked.debounceTimer, fired := [] }
    [(0, "workspace>>1"), (30, "workspace>>2"), (70, "focusedmon>>x")]
    (70, "focusedmon>>x") 500 rfl rfl (by decide) (by simp [IsBurst]) rfl (by decide)).1
